import Mathlib

/-!
Verification model of the refkit reference-management library.

Strings are modelled as lists of characters (`Chars`).  The Python 2
functions of refkit.util.doi, refkit.util.arxivid, refkit.util.citation,
refkit.format.author, refkit.format.journal, refkit.lookup.crossref and
refkit.metadata are translated as executable Lean functions.  Python
exceptions (ValueError, ZeroDivisionError, KeyError, IndexError) that
escape a function are modelled with `Option` (`none` = the call raises);
exceptions that the source catches locally are modelled by the
corresponding fallback branch.
-/

/-- Character lists standing for Python byte strings. -/
abbrev Chars := List Char

/-- Python whitespace characters: the characters matched by the regular
expression class backslash-s and by str.split() / str.strip() in Python 2
(space, tab, newline, carriage return, vertical tab, form feed). -/
def pyIsSpace (c : Char) : Bool :=
  c == ' ' || c == '\t' || c == '\n' || c == '\r' ||
  c == Char.ofNat 11 || c == Char.ofNat 12

/-- Python word characters: the characters matched by the regular
expression class backslash-w in Python 2 without re.UNICODE
(ASCII letters, digits and the underscore). -/
def pyWordChar (c : Char) : Bool :=
  c.isAlphanum || c == '_'

/-- The uppercase-to-lowercase letter pairs of the ASCII alphabet. -/
def upperLowerPairs : List (Char × Char) :=
  [('A', 'a'), ('B', 'b'), ('C', 'c'), ('D', 'd'), ('E', 'e'), ('F', 'f'),
   ('G', 'g'), ('H', 'h'), ('I', 'i'), ('J', 'j'), ('K', 'k'), ('L', 'l'),
   ('M', 'm'), ('N', 'n'), ('O', 'o'), ('P', 'p'), ('Q', 'q'), ('R', 'r'),
   ('S', 's'), ('T', 't'), ('U', 'u'), ('V', 'v'), ('W', 'w'), ('X', 'x'),
   ('Y', 'y'), ('Z', 'z')]

/-- ASCII lower casing as performed by Python 2 str.lower (only the 26
uppercase ASCII letters are mapped; everything else is unchanged). -/
def pyLower (c : Char) : Char :=
  match upperLowerPairs.find? (fun p => p.1 == c) with
  | some p => p.2
  | none => c

/-- ASCII upper casing as performed by Python 2 str.upper. -/
def pyUpper (c : Char) : Char :=
  match upperLowerPairs.find? (fun p => p.2 == c) with
  | some p => p.1
  | none => c

/-- ASCII letters (the cased characters of Python 2 str). -/
def pyIsAlpha (c : Char) : Bool :=
  ('A' ≤ c && c ≤ 'Z') || ('a' ≤ c && c ≤ 'z')

/-- Python str.title(): a cased character becomes uppercase after an
uncased character and lowercase after a cased one.  The flag records
whether the previous character was cased. -/
def pyTitleAux : Bool → Chars → Chars
  | _, [] => []
  | prevCased, c :: cs =>
    if pyIsAlpha c then
      (if prevCased then pyLower c else pyUpper c) :: pyTitleAux true cs
    else
      c :: pyTitleAux false cs

/-- Python str.title(). -/
def pyTitle (l : Chars) : Chars := pyTitleAux false l

/-- Python str.isupper(): at least one cased character, and every cased
character is uppercase. -/
def pyIsUpper (l : Chars) : Bool :=
  l.any (fun c => pyIsAlpha c) &&
  l.all (fun c => !(pyIsAlpha c) || c == pyUpper c)

/-- Splitting on a single separator character, mirroring Python
str.split(sep): the result always has at least one element, and empty
chunks are kept. -/
def splitOnCharAux (sep : Char) : Chars → Chars → List Chars
  | [], acc => [acc.reverse]
  | c :: cs, acc =>
    if c == sep then acc.reverse :: splitOnCharAux sep cs []
    else splitOnCharAux sep cs (c :: acc)

/-- Python str.split(sep) for a one-character separator. -/
def splitOnChar (sep : Char) (l : Chars) : List Chars :=
  splitOnCharAux sep l []

/-- Break a string at the first occurrence of a (nonempty) separator
string: `some (before, after)` when the separator occurs, `none`
otherwise. -/
def breakOn (sep : Chars) : Chars → Option (Chars × Chars)
  | [] => if sep.isEmpty then some ([], []) else none
  | c :: cs =>
    if sep.isPrefixOf (c :: cs) then some ([], (c :: cs).drop sep.length)
    else
      match breakOn sep cs with
      | some (a, b) => some (c :: a, b)
      | none => none

/-- Whitespace tokenisation as done by Python str.split() with no
arguments: maximal runs of non-whitespace characters, empty tokens never
produced. -/
def splitWordsAux : Chars → Chars → List Chars
  | [], acc => if acc.isEmpty then [] else [acc.reverse]
  | c :: cs, acc =>
    if pyIsSpace c then
      if acc.isEmpty then splitWordsAux cs []
      else acc.reverse :: splitWordsAux cs []
    else splitWordsAux cs (c :: acc)

/-- Python str.split() with no arguments. -/
def splitWords (l : Chars) : List Chars := splitWordsAux l []

/-- Python str.strip(): remove leading and trailing whitespace. -/
def stripWs (l : Chars) : Chars :=
  (((l.dropWhile (fun c => pyIsSpace c)).reverse).dropWhile
      (fun c => pyIsSpace c)).reverse

/-- Collapse of whitespace runs into single spaces, one pass of the
substitution re.sub of one-or-more whitespace by a single space.  The
flag records whether the previous kept character was part of a
whitespace run. -/
def collapseWs : Bool → Chars → Chars
  | _, [] => []
  | inSp, c :: cs =>
    if pyIsSpace c then
      if inSp then collapseWs true cs else ' ' :: collapseWs true cs
    else c :: collapseWs false cs

/-- Composition re.sub(whitespace-run, single space, s).strip() used by
refkit.format.author.formatGivenName. -/
def pySquashWs (l : Chars) : Chars := stripWs (collapseWs false l)

/-- Substring containment, Python str.find(sub) different from -1. -/
def containsSub (pat : Chars) : Chars → Bool
  | [] => pat.isPrefixOf []
  | c :: cs => pat.isPrefixOf (c :: cs) || containsSub pat cs

/-! Model of refkit/format/author.py. -/

/-- The apostrophe character, written by code point to keep the source
free of quote-escaping. -/
def apoChar : Char := Char.ofNat 39

/-- author._setCapitalization: lower the name, split on apostrophes,
re-case each part with the Mc/Mac prefix rules, rejoin.  Python
lstrip(chars) removes leading characters drawn from the given set. -/
def setCapitalization (name : Chars) : Chars :=
  let parts := splitOnChar apoChar (name.map pyLower)
  List.intercalate [apoChar] (parts.map (fun i =>
    if ("mc".toList).isPrefixOf i then
      "Mc".toList ++ pyTitle (i.dropWhile (fun c => c == 'm' || c == 'c'))
    else if ("mac".toList).isPrefixOf i then
      "Mac".toList ++ pyTitle (i.dropWhile (fun c => c == 'm' || c == 'a' || c == 'c'))
    else pyTitle i))

/-- author._capitalizeHyphenatedName: case adjustment of each
hyphen-separated segment; a segment that is not fully uppercase is kept
unchanged. -/
def capitalizeHyphenatedName (name : Chars) (isFamilyName : Bool) : Chars :=
  List.intercalate ['-'] ((splitOnChar '-' name).map (fun i =>
    if !(pyIsUpper i) then i
    else if isFamilyName then setCapitalization i
    else pyTitle i))

/-- author._capitalizeName: whitespace words capitalised independently
and rejoined with single spaces. -/
def capitalizeName (name : Chars) (isFamilyName : Bool) : Chars :=
  List.intercalate [' ']
    ((splitWords name).map (fun i => capitalizeHyphenatedName i isFamilyName))

/-- Python str.replace of a period by a period-plus-space, used by
author.formatGivenName. -/
def replaceDotSpace (l : Chars) : Chars :=
  l.foldr (fun c acc => (if c == '.' then ['.', ' '] else [c]) ++ acc) []

/-- author._abbreviateAbbreviatedName: split on periods, keep the first
character of each nonempty piece followed by a period, join with
spaces. -/
def abbreviateAbbreviatedName (name : Chars) : Chars :=
  List.intercalate [' ']
    ((splitOnChar '.' name).filterMap (fun i =>
      match i with
      | [] => none
      | c :: _ => some [c, '.']))

/-- author._abbreviateHyphenatedName. -/
def abbreviateHyphenatedName (name : Chars) : Chars :=
  List.intercalate ['-']
    ((splitOnChar '-' name).map abbreviateAbbreviatedName)

/-- author._abbreviateName. -/
def abbreviateName (name : Chars) : Chars :=
  List.intercalate [' '] ((splitWords name).map abbreviateHyphenatedName)

/-- author.formatGivenName. -/
def formatGivenName (name : Chars) (abbreviate : Bool) : Chars :=
  let capitalizedName := pySquashWs (replaceDotSpace (capitalizeName name false))
  if !abbreviate then capitalizedName else abbreviateName capitalizedName

/-- author.formatFamilyName. -/
def formatFamilyName (name : Chars) : Chars :=
  capitalizeName name true

/-- author.formatName. -/
def formatName (givenName familyName : Chars)
    (abbreviate familyNameFirst : Bool) : Chars :=
  let formattedGivenName := formatGivenName givenName abbreviate
  let formattedFamilyName := formatFamilyName familyName
  if familyNameFirst then
    formattedFamilyName ++ (", ".toList) ++ formattedGivenName
  else
    formattedGivenName ++ (" ".toList) ++ formattedFamilyName

/-- author._splitNameAtComma: split at the first comma (Python
split with maxsplit one), strip each part, drop empty parts. -/
def splitNameAtComma (name : Chars) : List Chars :=
  let pieces :=
    match breakOn [','] name with
    | none => [name]
    | some (a, b) => [a, b]
  (pieces.map stripWs).filter (fun p => !p.isEmpty)

/-- Whether a token ends with a period, Python str.endswith. -/
def endsWithDot (p : Chars) : Bool :=
  match p.getLast? with
  | some c => c == '.'
  | none => false

/-- author._splitNameByAbbreviations, with the raised ValueError
modelled as `none`: when the first token is a single character or ends
with a period, the first later token that is longer than one character
and does not end with a period starts the family name. -/
def splitNameByAbbreviationsO (parts : List Chars) : Option (Chars × Chars) :=
  match parts with
  | [] => none
  | p0 :: rest =>
    if p0.length == 1 || endsWithDot p0 then
      match rest.findIdx? (fun p => p.length > 1 && !endsWithDot p) with
      | some k =>
        some (List.intercalate [' '] (parts.take (k + 1)),
              List.intercalate [' '] (parts.drop (k + 1)))
      | none => none
    else none

/-- author._identifyPartsOfName: abbreviation heuristic with fallback to
all-but-last-word / last-word. -/
def identifyPartsOfName (parts : List Chars) : Chars × Chars :=
  match splitNameByAbbreviationsO parts with
  | some r => r
  | none => (List.intercalate [' '] parts.dropLast, parts.getLastD [])

/-- author._splitNameByWords. -/
def splitNameByWords (name : Chars) : Chars × Chars :=
  match splitWords name with
  | [] => ([], [])
  | [p] => ([], p)
  | [a, b] => (a, b)
  | parts => identifyPartsOfName parts

/-- author._splitNameIntoParts. -/
def splitNameIntoParts (name : Chars) : Chars × Chars :=
  match splitNameAtComma name with
  | [p0, p1] => (p1, p0)
  | _ => splitNameByWords name

/-- author.splitName, returning the pair (givenName, familyName) that
the source stores in a dictionary. -/
def splitName (name : Chars) : Chars × Chars :=
  splitNameIntoParts name

/-! Model of refkit/util/citation.py and of the result-ranking function
refkit/lookup/crossref.py _getBestQueryResult. -/

/-- Tokenisation used by citation.overlap: every non-word character is
replaced by a space, the string is lowered, and the result is split on
whitespace. -/
def citWords (s : Chars) : List Chars :=
  splitWords ((s.map (fun c => if pyWordChar c then c else ' ')).map pyLower)

/-- Scores are exact rationals standing for the Python floats, which are
exact here: the numerator is a small integer and the denominator a small
power-free integer, both far below 2 to the 53. -/
abbrev Score := ℚ

/-- Total value of citation.overlap, defined whenever the lookup
tokenises to at least one word. -/
def overlapVal (lookup citation : Chars) : Score :=
  let wordsInLookup := citWords lookup
  let wordsInCitation := citWords citation
  let matchList := wordsInLookup.map
    (fun i => if i ∈ wordsInCitation then (1 : Score) else 0)
  matchList.sum / (wordsInLookup.length : Score)

/-- citation.overlap with the ZeroDivisionError made explicit: `none`
when the lookup contains no word at all (the Python division by
len(wordsInLookup) raises in that case). -/
def overlapO (lookup citation : Chars) : Option Score :=
  if (citWords lookup).isEmpty then none
  else some (overlapVal lookup citation)

/-- Score the whole candidate list in order, propagating the
ZeroDivisionError of any single overlap call, as the list comprehension
in _getBestQueryResult does. -/
def scoreAllO (lookup : Chars) : List Chars → Option (List (Score × Chars))
  | [] => some []
  | c :: cs =>
    match overlapO lookup c, scoreAllO lookup cs with
    | some q, some rest => some ((q, c) :: rest)
    | _, _ => none

/-- Stable insertion of a scored candidate into a list sorted by
descending score: the new element goes after every element of strictly
greater score and before every element of smaller or equal score. -/
def insertByDesc (x : Score × Chars) : List (Score × Chars) → List (Score × Chars)
  | [] => [x]
  | y :: ys => if x.1 < y.1 then y :: insertByDesc x ys else x :: y :: ys

/-- Stable sort by descending score, the behaviour of Python
sorted(key=itemgetter(0), reverse=True): candidates of equal score keep
their original relative order. -/
def sortByDesc : List (Score × Chars) → List (Score × Chars)
  | [] => []
  | x :: xs => insertByDesc x (sortByDesc xs)

/-- Decision produced by crossref._getBestQueryResult: an accepted
candidate, the escalation to the interactive _askUserForBestResult
prompt, or the `None` return used when the query gave no results. -/
inductive QueryDecision where
  | accept (citation : Chars)
  | interactive
  | empty
  deriving DecidableEq, Repr

/-- crossref._getBestQueryResult: score each candidate against the
lookup, sort descending (stably), and apply the threshold rules; `none`
models an escaping Python exception (a ZeroDivisionError from overlap,
or from the second-best/best ratio when the best score is zero). -/
def getBestQueryResultO (lookup : Chars) (queryResults : List Chars)
    (autoSaveMinimum autoSaveMaximum : Score) : Option QueryDecision :=
  match scoreAllO lookup queryResults with
  | none => none
  | some scored =>
    match sortByDesc scored with
    | [] => some .empty
    | [r] =>
      if autoSaveMinimum ≤ r.1 then some (.accept r.2)
      else some .interactive
    | r1 :: r2 :: _ =>
      if autoSaveMinimum ≤ r1.1 then
        if r1.1 = 0 then none
        else if r2.1 / r1.1 < autoSaveMaximum then some (.accept r1.2)
        else some .interactive
      else some .interactive

/-- Classification rules exactly as the specification words them,
stated over an already scored and sorted result list. -/
def specClassify (results : List (Score × Chars))
    (autoMin autoMax : Score) : QueryDecision :=
  match results with
  | [] => .empty
  | [r] => if autoMin ≤ r.1 then .accept r.2 else .interactive
  | r1 :: r2 :: _ =>
    if autoMin ≤ r1.1 ∧ r2.1 / r1.1 < autoMax then .accept r1.2
    else .interactive

/-! Model of refkit/util/doi.py.

The regular expression is doi matching ten-dot, then one or more digits
or dots, then a slash, then one or more non-space characters, with a
negative lookahead for a word character.  Because the digit-dot class
excludes the slash and the non-space class is greedy up to the next
whitespace character or the end of the string, the backtracking search
of the engine reduces to maximal munching, and the lookahead after the
maximal non-space run always succeeds; `doiMatchAt` is that reduction.
finditer enumerates non-overlapping matches left to right, resuming
after the end of each match, which `doiScanAux` reproduces. -/

/-- Characters of the class digits-or-dot in the DOI pattern. -/
def digitOrDot (c : Char) : Bool := c.isDigit || c == '.'

/-- Length of the (unique, greedy) DOI-pattern match starting exactly at
position i of s, or `none`. -/
def doiMatchAt (s : Chars) (i : Nat) : Option Nat :=
  let rest := s.drop i
  if rest.take 3 = ['1', '0', '.'] then
    let ds := (rest.drop 3).takeWhile digitOrDot
    if ds.isEmpty then none
    else
      match rest.drop (3 + ds.length) with
      | c :: rest2 =>
        if c = '/' then
          let t := rest2.takeWhile (fun c => !pyIsSpace c)
          if t.isEmpty then none else some (3 + ds.length + 1 + t.length)
        else none
      | [] => none
  else none

/-- doi._validateStart: the match is rejected when the character
immediately before its start is a word character. -/
def doiValidStart (s : Chars) (i : Nat) : Bool :=
  match i with
  | 0 => true
  | j + 1 =>
    match s.get? j with
    | some c => !pyWordChar c
    | none => true

/-- Python str.rstrip with the characters hyphen, dot, slash. -/
def doiRstrip (l : Chars) : Chars :=
  (l.reverse.dropWhile (fun c => c == '-' || c == '.' || c == '/')).reverse

/-- The substring of s of length len starting at position i. -/
def subAt (s : Chars) (i len : Nat) : Chars := (s.drop i).take len

/-- Scan of doi.extract: at each position look for a match; a match
whose start is invalid is skipped and the scan resumes after its end,
exactly as finditer does.  The fuel argument dominates the number of
iterations; the wrapper passes enough for the whole string. -/
def doiScanAux (s : Chars) : Nat → Nat → Option Chars
  | 0, _ => none
  | fuel + 1, i =>
    if s.length < i then none
    else
      match doiMatchAt s i with
      | some len =>
        if doiValidStart s i then some (doiRstrip (subAt s i len))
        else doiScanAux s fuel (i + len)
      | none => doiScanAux s fuel (i + 1)

/-- doi.extract: `none` models the raised ValueError. -/
def doiExtract (s : Chars) : Option Chars :=
  doiScanAux s (s.length + 2) 0

/-! Model of refkit/util/arxivid.py.

The new-format pattern is four digits, a dot, four digits; finditer
enumerates non-overlapping matches and _extractNewFormat takes the first
one that passes the start and end validations, resuming after the end
of a rejected match.  The old-format pattern is a letter, one or more
letters, hyphens or dots, a slash and exactly seven digits; since the
letter-hyphen-dot class excludes the slash and digits are checked with a
fixed count, the greedy match reduces to maximal munching.  search
returns only the leftmost old-format match; when its subject part or
its end validation fails, _extractOldFormat gives up without resuming
the scan. -/

/-- arxivid._validateStartOfFormat: no word character immediately
before the match. -/
def arxivValidStartAt (s : Chars) (i : Nat) : Bool :=
  match i with
  | 0 => true
  | j + 1 =>
    match s.get? j with
    | some c => !pyWordChar c
    | none => true

/-- arxivid._validateEndOfFormat at match-end position e: the text after
the match must not start with a word character unless it starts with a
letter v (either case) followed by a digit. -/
def arxivValidEndAt (s : Chars) (e : Nat) : Bool :=
  match s.drop e with
  | [] => true
  | c :: rest =>
    !pyWordChar c ||
    ((c == 'v' || c == 'V') &&
      (match rest with
       | d :: _ => d.isDigit
       | [] => false))

/-- Whether the nine characters starting at position i of s form a
new-format identifier: four digits, a dot, four digits. -/
def arxivNewMatchAt (s : Chars) (i : Nat) : Bool :=
  match s.drop i with
  | a :: b :: c :: d :: dot :: e :: f :: g :: h :: _ =>
    a.isDigit && b.isDigit && c.isDigit && d.isDigit && dot == '.' &&
    e.isDigit && f.isDigit && g.isDigit && h.isDigit
  | _ => false

/-- Scan of arxivid._extractNewFormat over the non-overlapping matches
of the new-format pattern. -/
def arxivNewScanAux (s : Chars) : Nat → Nat → Option Chars
  | 0, _ => none
  | fuel + 1, i =>
    if s.length < i then none
    else
      if arxivNewMatchAt s i then
        if arxivValidStartAt s i && arxivValidEndAt s (i + 9) then
          some (subAt s i 9)
        else arxivNewScanAux s fuel (i + 9)
      else arxivNewScanAux s fuel (i + 1)

/-- arxivid._extractNewFormat. -/
def extractNewFormat (s : Chars) : Option Chars :=
  arxivNewScanAux s (s.length + 2) 0

/-- Characters of the class letter-hyphen-dot in the old-format
pattern. -/
def arxivOldClassChar (c : Char) : Bool := pyIsAlpha c || c == '-' || c == '.'

/-- Length of the (unique, greedy) old-format match starting exactly at
position i of s, or `none`. -/
def arxivOldMatchAt (s : Chars) (i : Nat) : Option Nat :=
  match s.drop i with
  | c :: rest =>
    if pyIsAlpha c then
      let r := rest.takeWhile arxivOldClassChar
      if r.isEmpty then none
      else
        match rest.drop r.length with
        | c2 :: rest2 =>
          if c2 = '/' then
            let ds := rest2.take 7
            if ds.length == 7 && ds.all (fun d => d.isDigit) then
              some (1 + r.length + 1 + 7)
            else none
          else none
        | [] => none
    else none
  | [] => none

/-- Leftmost old-format match of the pattern, as re.search returns it:
the scan advances one position at a time until a match starts. -/
def arxivOldSearchAux (s : Chars) : Nat → Nat → Option (Nat × Nat)
  | 0, _ => none
  | fuel + 1, i =>
    if s.length < i then none
    else
      match arxivOldMatchAt s i with
      | some len => some (i, len)
      | none => arxivOldSearchAux s fuel (i + 1)

/-- The arXiv subject areas recognised by the old format, as listed in
the source. -/
def arxivSubjectStrings : List String :=
  ["stat", "stat.AP", "stat.CO", "stat.ML", "stat.ME", "stat.TH", "q-bio",
   "q-bio.BM", "q-bio.CB", "q-bio.GN", "q-bio.MN", "q-bio.NC", "q-bio.OT",
   "q-bio.PE", "q-bio.QM", "q-bio.SC", "q-bio.TO", "cs", "cs.AR", "cs.AI",
   "cs.CL", "cs.CC", "cs.CE", "cs.CG", "cs.GT", "cs.CV", "cs.CY", "cs.CR",
   "cs.DS", "cs.DB", "cs.DL", "cs.DM", "cs.DC", "cs.GL", "cs.GR", "cs.HC",
   "cs.IR", "cs.IT", "cs.LG", "cs.LO", "cs.MS", "cs.MA", "cs.MM", "cs.NI",
   "cs.NE", "cs.NA", "cs.OS", "cs.OH", "cs.PF", "cs.PL", "cs.RO", "cs.SE",
   "cs.SD", "cs.SC", "nlin", "nlin.AO", "nlin.CG", "nlin.CD", "nlin.SI",
   "nlin.PS", "math", "math.AG", "math.AT", "math.AP", "math.CT", "math.CA",
   "math.CO", "math.AC", "math.CV", "math.DG", "math.DS", "math.FA",
   "math.GM", "math.GN", "math.GT", "math.GR", "math.HO", "math.IT",
   "math.KT", "math.LO", "math.MP", "math.MG", "math.NT", "math.NA",
   "math.OA", "math.OC", "math.PR", "math.QA", "math.RT", "math.RA",
   "math.SP", "math.ST", "math.SG", "astro-ph", "cond-mat",
   "cond-mat.dis-nn", "cond-mat.mes-hall", "cond-mat.mtrl-sci",
   "cond-mat.other", "cond-mat.soft", "cond-mat.stat-mech",
   "cond-mat.str-el", "cond-mat.supr-con", "gr-qc", "hep-ex", "hep-lat",
   "hep-ph", "hep-th", "math-ph", "nucl-ex", "nucl-th", "physics",
   "physics.acc-ph", "physics.ao-ph", "physics.atom-ph",
   "physics.atm-clus", "physics.bio-ph", "physics.chem-ph",
   "physics.class-ph", "physics.comp-ph", "physics.data-an",
   "physics.flu-dyn", "physics.gen-ph", "physics.geo-ph",
   "physics.hist-ph", "physics.ins-det", "physics.med-ph",
   "physics.optics", "physics.ed-ph", "physics.soc-ph",
   "physics.plasm-ph", "physics.pop-ph", "physics.space-ph", "quant-ph"]

/-- The subject areas as character lists. -/
def arxivSubjects : List Chars := arxivSubjectStrings.map String.toList

/-- arxivid._extractOldFormat: take the leftmost old-format match; keep
it only when its part before the slash is a recognised subject and the
end validation succeeds; otherwise return `none` without resuming the
scan. -/
def extractOldFormat (s : Chars) : Option Chars :=
  match arxivOldSearchAux s (s.length + 2) 0 with
  | none => none
  | some (i, len) =>
    let id := subAt s i len
    let subjectPart := id.takeWhile (fun c => c != '/')
    if subjectPart ∈ arxivSubjects && arxivValidEndAt s (i + len) then
      some id
    else none

/-- arxivid.extract: new format first, then old format; `none` models
the raised ValueError. -/
def arxivExtract (s : Chars) : Option Chars :=
  match extractNewFormat s with
  | some res => some res
  | none => extractOldFormat s

/-! Model of refkit/format/journal.py.

The five pickled dictionaries are data files outside the source tree;
they are modelled as an explicit parameter of partial lookup functions,
so the statements below hold for every dictionary content. -/

/-- The read-only abbreviation dictionaries loaded at startup. -/
structure JournalDicts where
  journals : Chars → Option Chars
  replacements : Chars → Option Chars
  prefixes : Chars → Option Chars
  suffixes : Chars → Option Chars
  infixes : Chars → Option Chars

/-- Key normalisation of _getJournalAbbreviation: lower the name and
drop every non-word character. -/
def journalKey (name : Chars) : Chars :=
  (name.map pyLower).filter pyWordChar

/-- journal._getJournalAbbreviation, with the KeyError as `none`. -/
def getJournalAbbreviationO (d : JournalDicts) (name : Chars) : Option Chars :=
  d.journals (journalKey name)

/-- journal._getFullReplacement. -/
def getFullReplacement (d : JournalDicts) (name : Chars) : Option Chars :=
  d.replacements name

/-- journal._getPrefixReplacement: the longest dictionary prefix wins,
down to and including the empty prefix. -/
def getPrefixReplacement (d : JournalDicts) (name : Chars) : Option Chars :=
  (List.range (name.length + 1)).reverse.findSome?
    (fun i => d.prefixes (name.take i))

/-- journal._getSuffixReplacement: the longest dictionary suffix wins,
and the part of the word before it is kept. -/
def getSuffixReplacement (d : JournalDicts) (name : Chars) : Option Chars :=
  (List.range (name.length + 1)).findSome?
    (fun i => (d.suffixes (name.drop i)).map (fun r => name.take i ++ r))

/-- journal._getInfixReplacement: substring lengths are tried from the
longest down, start positions from the left; the part of the word before
the infix is kept and the part after it is dropped. -/
def getInfixReplacement (d : JournalDicts) (name : Chars) : Option Chars :=
  (List.range (name.length + 1)).reverse.findSome? (fun i =>
    (List.range (name.length - i + 1)).findSome? (fun j =>
      (d.infixes ((name.drop j).take i)).map (fun r => name.take j ++ r)))

/-- journal._abbreviateWord, with the KeyError as `none`: the four
lookup tiers in order, then the rule that a replacement which only
differs from the word by trailing periods and case is discarded in
favour of the original word. -/
def abbreviateWordO (d : JournalDicts) (name : Chars) : Option Chars :=
  let lowercaseName := name.map pyLower
  let res := (((getFullReplacement d lowercaseName).orElse
    (fun _ => getPrefixReplacement d lowercaseName)).orElse
      (fun _ => getSuffixReplacement d lowercaseName)).orElse
        (fun _ => getInfixReplacement d lowercaseName)
  match res with
  | none => none
  | some r =>
    if (r.reverse.dropWhile (fun c => c == '.')).reverse.map pyLower
        ≠ lowercaseName then some r
    else some name

/-- CPython object identity between a piece of a split result and the
piece held in another slot of the same list: split builds each piece
with PyString_FromStringAndSize, which returns a fresh object for a
string of length two or more but the shared cached object for the empty
string and for every single-character string, so `x is y` holds for two
pieces exactly when they are the same slot (samePos) or the piece is a
string of length at most one with the same value as the other. -/
def pyStrIs (samePos : Bool) (w v : Chars) : Prop :=
  samePos = true ∨ (w.length ≤ 1 ∧ w = v)

instance (samePos : Bool) (w v : Chars) : Decidable (pyStrIs samePos w v) :=
  decidable_of_iff (samePos = true ∨ (w.length ≤ 1 ∧ w = v)) Iff.rfl

/-- Word loop of journal._abbreviateParts: a word with a replacement is
kept (title-cased); a word without one is kept only when the test
`i is parts[-1] or (forcePrintFirst and i is parts[0])` holds.  The
identity tests are positional for the fresh multi-character strings
produced by split, but a single-character word is the shared cached
object, so it is also identical to an equal single-character first or
last word of the part (pyStrIs). -/
def abbrevLoop (d : JournalDicts) (forcePrintFirst : Bool)
    (first last : Chars) : Bool → List Chars → List Chars
  | _, [] => []
  | isFirst, w :: rest =>
    match abbreviateWordO d w with
    | some r => pyTitle r :: abbrevLoop d forcePrintFirst first last false rest
    | none =>
      if pyStrIs rest.isEmpty w last
          ∨ (forcePrintFirst = true ∧ pyStrIs isFirst w first) then
        pyTitle w :: abbrevLoop d forcePrintFirst first last false rest
      else abbrevLoop d forcePrintFirst first last false rest

/-- journal._abbreviateParts: parts is name.split(), and the loop
compares each word against parts[0] and parts[-1] by object identity. -/
def abbreviateParts (d : JournalDicts) (name : Chars)
    (forcePrintFirst : Bool) : Chars :=
  List.intercalate [' ']
    (abbrevLoop d forcePrintFirst ((splitWords name).headD [])
      ((splitWords name).getLast?.getD []) true (splitWords name))

/-- journal._abbreviateSubtitle: every hyphen segment is abbreviated
with forcePrintFirst true. -/
def abbreviateSubtitle (d : JournalDicts) (name : Chars)
    (checkForJournal : Bool) : Chars :=
  match (if checkForJournal then getJournalAbbreviationO d name else none) with
  | some r => r
  | none =>
    List.intercalate ['-']
      ((splitOnChar '-' name).map (fun i => abbreviateParts d i true))

/-- journal.getAbbreviation: whole-name dictionary lookup first, then
the subtitle segments; the flag of each segment is `i is parts[0]`,
which holds for the first segment and, through the CPython cache of
short strings, for any later segment of length at most one equal in
value to the first (pyStrIs with samePos false for the later slots). -/
def getAbbreviation (d : JournalDicts) (name : Chars) : Chars :=
  match getJournalAbbreviationO d name with
  | some r => r
  | none =>
    let parts := splitOnChar ':' name
    let pieces :=
      match parts with
      | [] => []
      | p0 :: rest =>
        abbreviateSubtitle d p0 true ::
          rest.map (fun i =>
            abbreviateSubtitle d i (decide (i.length ≤ 1 ∧ i = p0)))
    List.intercalate [':', ' '] pieces

/-- Dictionaries with no entries at all, used for concrete tests. -/
def emptyDicts : JournalDicts :=
  ⟨fun _ => none, fun _ => none, fun _ => none, fun _ => none, fun _ => none⟩

/-! Model of refkit/metadata.py: the Metadata record, the tidy pass and
the publisher-specific backfill. -/

/-- A person, the dictionary with givenName and familyName stored in the
author and editor lists. -/
structure PersonName where
  givenName : Chars
  familyName : Chars
  deriving DecidableEq, Repr

/-- The Metadata storage object; every text field defaults to the empty
string and the name lists to empty lists. -/
structure Metadata where
  doi : Chars := []
  isbn : Chars := []
  issn : Chars := []
  url : Chars := []
  author : List PersonName := []
  editor : List PersonName := []
  publisher : Chars := []
  title : Chars := []
  edition : Chars := []
  journal : Chars := []
  volume : Chars := []
  issue : Chars := []
  year : Chars := []
  pageStart : Chars := []
  pageEnd : Chars := []
  deriving DecidableEq, Repr

/-- metadata._tidyObject: replace newlines by spaces, collapse
whitespace runs to single spaces, strip the ends. -/
def tidyObject (value : Chars) : Chars :=
  stripWs (collapseWs false (value.map (fun c => if c == '\n' then ' ' else c)))

/-- Tidying of one stored name dictionary (metadata._tidyDict applied
through _tidyList). -/
def tidyName (n : PersonName) : PersonName :=
  ⟨tidyObject n.givenName, tidyObject n.familyName⟩

/-- The per-field loop of metadata.tidy before the publisher pass:
_tidyValue applied to every attribute. -/
def tidyFields (m : Metadata) : Metadata where
  doi := tidyObject m.doi
  isbn := tidyObject m.isbn
  issn := tidyObject m.issn
  url := tidyObject m.url
  author := m.author.map tidyName
  editor := m.editor.map tidyName
  publisher := tidyObject m.publisher
  title := tidyObject m.title
  edition := tidyObject m.edition
  journal := tidyObject m.journal
  volume := tidyObject m.volume
  issue := tidyObject m.issue
  year := tidyObject m.year
  pageStart := tidyObject m.pageStart
  pageEnd := tidyObject m.pageEnd

/-- metadata._tidyForAps: when the page start or the volume is missing
and a DOI is present, the second and third dot-separated parts of the
segment after the first slash of the DOI fill the empty fields.  The two
assignment lines run in order inside one try block: an IndexError while
reading the volume part leaves everything unchanged, an IndexError while
reading the page part keeps an already performed volume assignment; a
conditional expression whose condition holds never evaluates the
indexing, so a present field never raises. -/
def tidyForAps (m : Metadata) : Metadata :=
  if (m.pageStart = [] ∨ m.volume = []) ∧ m.doi ≠ [] then
    match splitOnChar '/' m.doi with
    | _ :: second :: _ =>
      let parts := splitOnChar '.' second
      if m.volume = [] then
        match parts.get? 1 with
        | none => m
        | some p1 =>
          let m1 := { m with volume := p1 }
          if m1.pageStart = [] then
            match parts.get? 2 with
            | none => m1
            | some p2 => { m1 with pageStart := p2 }
          else m1
      else
        if m.pageStart = [] then
          match parts.get? 2 with
          | none => m
          | some p2 => { m with pageStart := p2 }
        else m
    | _ => m
  else m

/-- The part the Nature rule reads: element one of doi.split on the
five-character separator slash-s-r-e-p, that is the text between the
first occurrence of the separator and the next one (or the end); `none`
when the separator does not occur (the IndexError of the source). -/
def natureSuffix (doi : Chars) : Option Chars :=
  match breakOn ("/srep".toList) doi with
  | none => none
  | some (_, rest) =>
    match breakOn ("/srep".toList) rest with
    | none => some rest
    | some (a, _) => some a

/-- metadata._tidyForNature. -/
def tidyForNature (m : Metadata) : Metadata :=
  if m.pageStart = [] then
    match natureSuffix m.doi with
    | none => m
    | some p => { m with pageStart := p }
  else m

/-- The publisher pattern of the APS rule. -/
def apsPat : Chars := "americanphysicalsociety".toList

/-- The publisher pattern of the Nature rule. -/
def naturePat : Chars := "naturepublishing".toList

/-- The lowered, space-free publisher lookup key of
metadata._tidyByPublisher. -/
def publisherLookup (publisher : Chars) : Chars :=
  (publisher.map pyLower).filter (fun c => c != ' ')

/-- metadata._tidyByPublisher. -/
def tidyByPublisher (m : Metadata) : Metadata :=
  let lookup := publisherLookup m.publisher
  if containsSub apsPat lookup then tidyForAps m
  else if containsSub naturePat lookup then tidyForNature m
  else m

/-- metadata.tidy: the whitespace pass over every field, then the
publisher pass. -/
def tidy (m : Metadata) : Metadata :=
  tidyByPublisher (tidyFields m)

/-! General lemmas about the word splitter and the overlap score. -/

theorem pyWordChar_not_space {c : Char} (h : pyWordChar c = true) :
    pyIsSpace c = false := by
  by_contra hs
  have hs' : pyIsSpace c = true := by
    cases hx : pyIsSpace c with
    | true => rfl
    | false => exact absurd hx hs
  simp only [pyIsSpace, Bool.or_eq_true, beq_iff_eq] at hs'
  rcases hs' with ((((h1 | h1) | h1) | h1) | h1) | h1 <;>
    (subst h1; exact absurd h (by decide))

theorem pyLower_not_space {c : Char} (hc : pyIsSpace c = false) :
    pyIsSpace (pyLower c) = false := by
  unfold pyLower
  cases hf : upperLowerPairs.find? (fun p => p.1 == c) with
  | none => exact hc
  | some p =>
    have hp : p ∈ upperLowerPairs := List.mem_of_find?_eq_some hf
    have hall : ∀ q ∈ upperLowerPairs, pyIsSpace q.2 = false := by decide
    exact hall p hp

theorem pyLower_not_space_of_word {c : Char} (h : pyWordChar c = true) :
    pyIsSpace (pyLower c) = false :=
  pyLower_not_space (pyWordChar_not_space h)

theorem splitWordsAux_ne_nil_left (l : Chars) :
    ∀ acc : Chars, acc ≠ [] → splitWordsAux l acc ≠ [] := by
  induction l with
  | nil =>
    intro acc hacc
    simp only [splitWordsAux]
    have : acc.isEmpty = false := by
      cases acc with
      | nil => exact absurd rfl hacc
      | cons a as => rfl
    simp [this]
  | cons c cs ih =>
    intro acc hacc
    have hne : acc.isEmpty = false := by
      cases acc with
      | nil => exact absurd rfl hacc
      | cons a as => rfl
    simp only [splitWordsAux]
    by_cases hc : pyIsSpace c = true
    · simp [hc, hne]
    · have hc' : pyIsSpace c = false := by
        cases hx : pyIsSpace c with
        | true => exact absurd hx hc
        | false => rfl
      rw [hc']
      simp only [Bool.false_eq_true, if_false]
      exact ih (c :: acc) (by simp)

theorem splitWordsAux_ne_nil {c : Char} {l : Chars}
    (hm : c ∈ l) (hc : pyIsSpace c = false) :
    ∀ acc : Chars, splitWordsAux l acc ≠ [] := by
  induction l with
  | nil => exact absurd hm (List.not_mem_nil c)
  | cons d ds ih =>
    intro acc
    simp only [splitWordsAux]
    by_cases hd : pyIsSpace d = true
    · have hcd : c ∈ ds := by
        rcases List.mem_cons.1 hm with h | h
        · subst h; rw [hd] at hc; exact absurd hc (by simp)
        · exact h
      by_cases ha : acc.isEmpty = true
      · simp [hd, ha]
        exact ih hcd []
      · have ha' : acc.isEmpty = false := by
          cases hx : acc.isEmpty with
          | true => exact absurd hx ha
          | false => rfl
        simp [hd, ha']
    · have hd' : pyIsSpace d = false := by
        cases hx : pyIsSpace d with
        | true => exact absurd hx hd
        | false => rfl
      rw [hd']
      simp only [Bool.false_eq_true, if_false]
      exact splitWordsAux_ne_nil_left ds (d :: acc) (by simp)

theorem splitWords_ne_nil {c : Char} {l : Chars}
    (hm : c ∈ l) (hc : pyIsSpace c = false) : splitWords l ≠ [] :=
  splitWordsAux_ne_nil hm hc []

theorem splitWords_eq_nil {l : Chars}
    (h : ∀ c ∈ l, pyIsSpace c = true) : splitWords l = [] := by
  have aux : splitWordsAux l [] = [] := by
    induction l with
    | nil => rfl
    | cons c cs ih =>
      have hc := h c (by simp)
      simp only [splitWordsAux, hc, if_pos rfl, List.isEmpty_nil]
      exact ih (fun d hd => h d (by simp [hd]))
  exact aux

theorem citWords_ne_nil {lookup : Chars} {c : Char}
    (hm : c ∈ lookup) (hw : pyWordChar c = true) : citWords lookup ≠ [] := by
  unfold citWords
  refine splitWords_ne_nil (c := pyLower c) ?_ (pyLower_not_space_of_word hw)
  refine List.mem_map.2 ⟨(if pyWordChar c then c else ' '), ?_, ?_⟩
  · exact List.mem_map.2 ⟨c, hm, rfl⟩
  · simp [hw]

theorem citWords_eq_nil {lookup : Chars}
    (h : ∀ c ∈ lookup, pyWordChar c = false) : citWords lookup = [] := by
  unfold citWords
  refine splitWords_eq_nil ?_
  intro x hx
  rcases List.mem_map.1 hx with ⟨y, hy, rfl⟩
  rcases List.mem_map.1 hy with ⟨c, hc, rfl⟩
  have hce : (if pyWordChar c = true then c else ' ') = ' ' := by
    simp [h c hc]
  rw [hce]
  decide

theorem sum_indicator_nonneg (p : Chars → Prop) [DecidablePred p]
    (l : List Chars) :
    0 ≤ (l.map (fun i => if p i then (1 : Score) else 0)).sum := by
  induction l with
  | nil => simp
  | cons x xs ih =>
    simp only [List.map_cons, List.sum_cons]
    have : (0 : Score) ≤ (if p x then (1 : Score) else 0) := by
      split <;> norm_num
    linarith

theorem sum_indicator_le_length (p : Chars → Prop) [DecidablePred p]
    (l : List Chars) :
    (l.map (fun i => if p i then (1 : Score) else 0)).sum ≤ (l.length : Score) := by
  induction l with
  | nil => simp
  | cons x xs ih =>
    simp only [List.map_cons, List.sum_cons, List.length_cons]
    have : (if p x then (1 : Score) else 0) ≤ (1 : Score) := by
      split <;> norm_num
    push_cast
    linarith

theorem sum_map_one (l : List Chars) :
    (l.map (fun _ => (1 : Score))).sum = (l.length : Score) := by
  induction l with
  | nil => simp
  | cons x xs ih =>
    simp only [List.map_cons, List.sum_cons, List.length_cons]
    push_cast
    linarith

/-! Claims C5, C9 and C10. -/

/-- Claim C5, counterexample: on the lowercase inputs of the claim the
code leaves both names unrecased, because the capitalisation pass only
re-cases segments that are fully uppercase, so the output is the
lowercase string and not the claimed McDonald form. -/
theorem c5_counterexample :
    formatName ("jean-paul".toList) ("mcdonald".toList) true true
      = ("mcdonald, j.-p.".toList) ∧
    formatName ("jean-paul".toList) ("mcdonald".toList) true true
      ≠ ("McDonald, J.-P.".toList) := by decide

/-- Claim C5 as amended: formatName applied to the fully uppercase
inputs JEAN-PAUL and MCDONALD with abbreviation and family-name-first
returns exactly the string McDonald-comma-space-J.-P., the family name
re-cased under the mc-prefix rule and the given name abbreviated to
hyphen-preserving capitalised initials after the family name and a
comma; the lowercase inputs of the original claim are returned without
re-casing. -/
theorem c5_formatName_mcdonald :
    formatName ("JEAN-PAUL".toList) ("MCDONALD".toList) true true
      = ("McDonald, J.-P.".toList) := by decide

/-- Claim C9 as amended: for every lookup string containing at least one
word character, the overlap score of the lookup with itself is exactly
one.  (For a non-empty lookup with no word character the call raises
instead, see the counterexample.) -/
theorem c9_overlap_self_eq_one (lookup : Chars) (c : Char)
    (hm : c ∈ lookup) (hw : pyWordChar c = true) :
    overlapO lookup lookup = some 1 := by
  have hne := citWords_ne_nil hm hw
  have hE : (citWords lookup).isEmpty = false := by
    cases h : citWords lookup with
    | nil => exact absurd h hne
    | cons a as => rfl
  unfold overlapO overlapVal
  rw [hE]
  simp only [Bool.false_eq_true, if_false]
  congr 1
  have hmap : (citWords lookup).map
      (fun i => if i ∈ citWords lookup then (1 : Score) else 0)
      = (citWords lookup).map (fun _ => (1 : Score)) := by
    apply List.map_congr_left
    intro a ha
    simp [ha]
  rw [hmap, sum_map_one]
  have hlen : ((citWords lookup).length : Score) ≠ 0 :=
    Nat.cast_ne_zero.mpr (Nat.pos_iff_ne_zero.1 (List.length_pos.2 hne))
  exact div_self hlen

theorem c9_witness : overlapO ("doi".toList) ("doi".toList) = some 1 :=
  c9_overlap_self_eq_one ("doi".toList) 'd' (by decide) (by decide)

/-- Claim C9, counterexample: the string of three exclamation marks is a
non-empty lookup, yet its overlap with itself is not one: the call
raises a ZeroDivisionError, modelled by `none`. -/
theorem c9_counterexample :
    ("!!!".toList ≠ ([] : Chars)) ∧
    overlapO ("!!!".toList) ("!!!".toList) = none := by decide

/-- Claim C10 as amended: a lookup with at least one alphanumeric
character always yields a score in the unit interval, while a lookup
with no word character at all (alphanumeric or underscore) makes the
call raise a ZeroDivisionError; a lookup such as a lone underscore has
no alphanumeric character but still returns a score. -/
theorem c10_overlap_domain (lookup citation : Chars) :
    ((∃ c ∈ lookup, c.isAlphanum = true) →
      ∃ q, overlapO lookup citation = some q ∧ 0 ≤ q ∧ q ≤ 1) ∧
    ((∀ c ∈ lookup, pyWordChar c = false) →
      overlapO lookup citation = none) := by
  constructor
  · rintro ⟨c, hm, ha⟩
    have hw : pyWordChar c = true := by simp [pyWordChar, ha]
    have hne := citWords_ne_nil hm hw
    have hE : (citWords lookup).isEmpty = false := by
      cases h : citWords lookup with
      | nil => exact absurd h hne
      | cons a as => rfl
    refine ⟨overlapVal lookup citation, ?_, ?_, ?_⟩
    · unfold overlapO
      rw [hE]
      simp
    · unfold overlapVal
      exact div_nonneg (sum_indicator_nonneg _ _) (by positivity)
    · unfold overlapVal
      have hlen : 0 < ((citWords lookup).length : Score) := by
        have h1 : 0 < (citWords lookup).length := List.length_pos.2 hne
        exact_mod_cast h1
      rw [div_le_one hlen]
      exact sum_indicator_le_length _ _
  · intro h
    unfold overlapO
    rw [citWords_eq_nil h]
    simp

theorem c10_witness :
    ∃ q, overlapO ("ab".toList) ("zz".toList) = some q ∧ 0 ≤ q ∧ q ≤ 1 :=
  (c10_overlap_domain ("ab".toList) ("zz".toList)).1 ⟨'a', by decide, by decide⟩

/-- Claim C10, counterexample: the lone underscore contains no
alphanumeric character, yet the overlap call succeeds, because the
tokenisation keeps word characters and the Python word class also
contains the underscore. -/
theorem c10_counterexample :
    (∀ c ∈ ("_".toList), c.isAlphanum = false) ∧
    (overlapO ("_".toList) ("x".toList)).isSome = true := by decide

/-! Claim C6: the name splitter. -/

/-- Specification-side description of the text before the first comma. -/
def specCommaBefore (name : Chars) : Chars :=
  name.takeWhile (fun c => c != ',')

/-- Specification-side description of the text after the first comma. -/
def specCommaAfter (name : Chars) : Chars :=
  (name.dropWhile (fun c => c != ',')).tail

theorem breakOn_single (ch : Char) (l : Chars) :
    breakOn [ch] l =
      if ch ∈ l then
        some (l.takeWhile (fun c => c != ch), (l.dropWhile (fun c => c != ch)).tail)
      else none := by
  induction l with
  | nil => simp [breakOn]
  | cons c cs ih =>
    by_cases hc : c = ch
    · subst hc
      have hpre : ([c] : Chars).isPrefixOf (c :: cs) = true := by
        simp [List.isPrefixOf]
      simp [breakOn, hpre, List.takeWhile, List.dropWhile]
    · have hpre : ([ch] : Chars).isPrefixOf (c :: cs) = false := by
        simp [List.isPrefixOf]
        exact fun h => absurd h.symm hc
      have hne : (c != ch) = true := by
        simp [bne_iff_ne]
        exact hc
      by_cases hmem : ch ∈ cs
      · have hmem' : ch ∈ c :: cs := List.mem_cons_of_mem c hmem
        simp only [breakOn, hpre, Bool.false_eq_true, if_false, ih,
          if_pos hmem, if_pos hmem', List.takeWhile, List.dropWhile, hne]
      · have hmem' : ch ∉ c :: cs := by
          intro h
          rcases List.mem_cons.1 h with h1 | h1
          · exact hc h1.symm
          · exact hmem h1
        simp only [breakOn, hpre, Bool.false_eq_true, if_false, ih,
          if_neg hmem, if_neg hmem']

/-- Specification-side index where the family name starts in the
abbreviation heuristic for three or more words: defined when the first
token is a single character or ends with a period, as the position of
the first later token longer than one character not ending with a
period. -/
def specAbbrevIdx (parts : List Chars) : Option Nat :=
  match parts with
  | [] => none
  | p0 :: rest =>
    if p0.length == 1 || endsWithDot p0 then
      (rest.findIdx? (fun p => p.length > 1 && !endsWithDot p)).map (· + 1)
    else none

/-- Specification-side splitting of a comma-free name into given and
family parts, as the claim words it. -/
def specWordsSplit (parts : List Chars) : Chars × Chars :=
  match parts with
  | [] => ([], [])
  | [w] => ([], w)
  | [a, b] => (a, b)
  | _ =>
    match specAbbrevIdx parts with
    | some i =>
      (List.intercalate [' '] (parts.take i), List.intercalate [' '] (parts.drop i))
    | none =>
      (List.intercalate [' '] parts.dropLast, parts.getLastD [])

theorem splitNameByAbbreviationsO_eq (parts : List Chars) :
    splitNameByAbbreviationsO parts
      = (specAbbrevIdx parts).map (fun i =>
          (List.intercalate [' '] (parts.take i),
           List.intercalate [' '] (parts.drop i))) := by
  cases parts with
  | nil => rfl
  | cons p0 rest =>
    simp only [splitNameByAbbreviationsO, specAbbrevIdx]
    by_cases h : (p0.length == 1 || endsWithDot p0) = true
    · rw [if_pos h, if_pos h]
      cases hf : rest.findIdx? (fun p => p.length > 1 && !endsWithDot p) with
      | none => rfl
      | some k => rfl
    · rw [if_neg h, if_neg h]
      rfl

theorem splitNameByWords_eq (name : Chars) :
    splitNameByWords name = specWordsSplit (splitWords name) := by
  unfold splitNameByWords specWordsSplit
  cases hw : splitWords name with
  | nil => rfl
  | cons a l1 =>
    cases l1 with
    | nil => rfl
    | cons b l2 =>
      cases l2 with
      | nil => rfl
      | cons c l3 =>
        simp only [identifyPartsOfName, splitNameByAbbreviationsO_eq]
        cases hs : specAbbrevIdx (a :: b :: c :: l3) with
        | none => rfl
        | some i => rfl

theorem isEmpty_false_of_ne {α : Type} {l : List α} (h : l ≠ []) :
    l.isEmpty = false := by
  cases l with
  | nil => exact absurd rfl h
  | cons a as => rfl

/-- Claim C6 as amended: when the full name contains a comma and both
the trimmed part before the first comma and the trimmed part after it
are nonempty, splitName returns the trimmed after-part as the given name
and the trimmed before-part as the family name; in every other case
(including a comma with an empty side, as in the counterexample) the
whole string is split on whitespace, with zero words giving two empty
names, one word giving a family name only, two words giving given then
family, and three or more words partitioned by the abbreviation
heuristic with the all-but-last-word fallback; in particular the
Tolkien and Smith-John examples of the claim hold. -/
theorem c6_splitName_cases (name : Chars) :
    ((',' ∈ name ∧ stripWs (specCommaBefore name) ≠ [] ∧
        stripWs (specCommaAfter name) ≠ []) →
      splitName name
        = (stripWs (specCommaAfter name), stripWs (specCommaBefore name))) ∧
    ((',' ∉ name ∨ stripWs (specCommaBefore name) = [] ∨
        stripWs (specCommaAfter name) = []) →
      splitName name = specWordsSplit (splitWords name)) ∧
    splitName ("J. R. R. Tolkien".toList)
      = ("J. R. R.".toList, "Tolkien".toList) ∧
    splitName ("Smith, John".toList) = ("John".toList, "Smith".toList) := by
  refine ⟨?_, ?_, by decide, by decide⟩
  · rintro ⟨hin, hb, ha⟩
    have hbE : (stripWs (name.takeWhile (fun c => c != ','))).isEmpty = false :=
      isEmpty_false_of_ne hb
    have haE :
        (stripWs ((name.dropWhile (fun c => c != ',')).tail)).isEmpty = false :=
      isEmpty_false_of_ne ha
    have h1 : splitNameAtComma name
        = [stripWs (specCommaBefore name), stripWs (specCommaAfter name)] := by
      unfold splitNameAtComma
      rw [breakOn_single, if_pos hin]
      simp [hbE, haE, specCommaBefore, specCommaAfter]
    unfold splitName splitNameIntoParts
    rw [h1]
  · intro hcase
    unfold splitName splitNameIntoParts
    have step : ∀ res : List Chars,
        splitNameAtComma name = res → res.length ≠ 2 →
        (match splitNameAtComma name with
          | [p0, p1] => (p1, p0)
          | _ => splitNameByWords name) = specWordsSplit (splitWords name) := by
      intro res hres hlen
      rw [hres]
      match res, hlen with
      | [], _ => exact splitNameByWords_eq name
      | [x], _ => exact splitNameByWords_eq name
      | x :: y :: z :: t, _ => exact splitNameByWords_eq name
      | [x, y], h => exact absurd rfl h
    rcases hcase with hnc | hbe | hae
    · cases hE : (stripWs name).isEmpty with
      | true =>
        refine step [] ?_ (by simp)
        unfold splitNameAtComma
        rw [breakOn_single, if_neg hnc]
        simp [hE]
      | false =>
        refine step [stripWs name] ?_ (by simp)
        unfold splitNameAtComma
        rw [breakOn_single, if_neg hnc]
        simp [hE]
    · by_cases hin : ',' ∈ name
      · have hbE : (stripWs (name.takeWhile (fun c => c != ','))).isEmpty = true := by
          have : stripWs (name.takeWhile (fun c => c != ',')) = [] := hbe
          rw [this]
          rfl
        cases hE : (stripWs ((name.dropWhile (fun c => c != ',')).tail)).isEmpty with
        | true =>
          refine step [] ?_ (by simp)
          unfold splitNameAtComma
          rw [breakOn_single, if_pos hin]
          simp [hbE, hE]
        | false =>
          refine step [stripWs (specCommaAfter name)] ?_ (by simp)
          unfold splitNameAtComma
          rw [breakOn_single, if_pos hin]
          simp [hbE, hE, specCommaAfter]
      · cases hE : (stripWs name).isEmpty with
        | true =>
          refine step [] ?_ (by simp)
          unfold splitNameAtComma
          rw [breakOn_single, if_neg hin]
          simp [hE]
        | false =>
          refine step [stripWs name] ?_ (by simp)
          unfold splitNameAtComma
          rw [breakOn_single, if_neg hin]
          simp [hE]
    · by_cases hin : ',' ∈ name
      · have haE :
            (stripWs ((name.dropWhile (fun c => c != ',')).tail)).isEmpty = true := by
          have : stripWs ((name.dropWhile (fun c => c != ',')).tail) = [] := hae
          rw [this]
          rfl
        cases hE : (stripWs (name.takeWhile (fun c => c != ','))).isEmpty with
        | true =>
          refine step [] ?_ (by simp)
          unfold splitNameAtComma
          rw [breakOn_single, if_pos hin]
          simp [haE, hE]
        | false =>
          refine step [stripWs (specCommaBefore name)] ?_ (by simp)
          unfold splitNameAtComma
          rw [breakOn_single, if_pos hin]
          simp [haE, hE, specCommaBefore]
      · cases hE : (stripWs name).isEmpty with
        | true =>
          refine step [] ?_ (by simp)
          unfold splitNameAtComma
          rw [breakOn_single, if_neg hin]
          simp [hE]
        | false =>
          refine step [stripWs name] ?_ (by simp)
          unfold splitNameAtComma
          rw [breakOn_single, if_neg hin]
          simp [hE]

theorem c6_witness :
    splitName ("Smith , John".toList) = ("John".toList, "Smith".toList) :=
  (c6_splitName_cases ("Smith , John".toList)).1 ⟨by decide, by decide, by decide⟩

/-- Claim C6, counterexample: the name Smith-comma contains a comma, so
the claim demands an empty given name with family name Smith, but the
code only takes the comma path when both sides are nonempty after
trimming; here it falls back to whitespace splitting of the whole
string and keeps the comma inside the family name. -/
theorem c6_counterexample :
    (',' ∈ ("Smith,".toList)) ∧
    splitName ("Smith,".toList) = ([], "Smith,".toList) := by decide

/-! Claim C7: the drop rule of the journal abbreviator. -/

/-- Specification-side keep rule for one word of a hyphen part (with
forcePrintFirst true, as every call in the source passes): a replaced
word is kept in title case; an unreplaced word is kept only at the
first or the last position of its part, or when it is a string of
length at most one equal in value to the part's first or last word,
which CPython string sharing makes the same object as that boundary
word. -/
def specKeep (d : JournalDicts) (first last : Chars) (n i : Nat)
    (w : Chars) : Option Chars :=
  match abbreviateWordO d w with
  | some r => some (pyTitle r)
  | none =>
    if i = 0 ∨ i = n - 1 ∨ (w.length ≤ 1 ∧ (w = first ∨ w = last)) then
      some (pyTitle w)
    else none

/-- Specification-side word list kept from one hyphen part. -/
def specKeptWords (d : JournalDicts) (parts : List Chars) : List Chars :=
  parts.enum.filterMap (fun p =>
    specKeep d (parts.headD []) (parts.getLast?.getD []) parts.length
      p.1 p.2)

theorem abbrevLoop_cond_tail (w first last w2 : Chars) (t2 : List Chars) :
    (pyStrIs (w2 :: t2).isEmpty w last ∨ (True ∧ pyStrIs false w first))
      ↔ (w.length ≤ 1 ∧ (w = first ∨ w = last)) := by
  unfold pyStrIs
  simp only [List.isEmpty_cons, Bool.false_eq_true, false_or, true_and]
  tauto

theorem abbrevLoop_cond_head (w first last : Chars) (rest : List Chars) :
    pyStrIs rest.isEmpty w last ∨ (True ∧ pyStrIs true w first) :=
  Or.inr ⟨trivial, Or.inl rfl⟩

theorem filterMap_congr_mem {α β : Type} {f g : α → Option β} :
    ∀ {l : List α}, (∀ a ∈ l, f a = g a) → l.filterMap f = l.filterMap g := by
  intro l
  induction l with
  | nil => intro _; rfl
  | cons x xs ih =>
    intro h
    simp only [List.filterMap_cons, h x (by simp)]
    rw [ih (fun a ha => h a (by simp [ha]))]

theorem abbrevLoop_tail_eq (d : JournalDicts) (first last : Chars) :
    ∀ (t : List Chars) (k : Nat),
      abbrevLoop d true first last false t
        = (List.enumFrom k t).filterMap (fun p =>
            match abbreviateWordO d p.2 with
            | some r => some (pyTitle r)
            | none =>
              if p.1 = k + t.length - 1
                  ∨ (p.2.length ≤ 1 ∧ (p.2 = first ∨ p.2 = last)) then
                some (pyTitle p.2)
              else none) := by
  intro t
  induction t with
  | nil => intro k; rfl
  | cons w rest ih =>
    intro k
    simp only [abbrevLoop, List.enumFrom, List.filterMap_cons]
    cases hw : abbreviateWordO d w with
    | some r =>
      simp only []
      rw [ih (k + 1)]
      apply congrArg
      apply filterMap_congr_mem
      intro a _
      cases abbreviateWordO d a.2 with
      | some r2 => rfl
      | none =>
        have harith : k + 1 + rest.length - 1 = k + (w :: rest).length - 1 := by
          simp only [List.length_cons]
          omega
        rw [harith]
    | none =>
      simp only []
      cases rest with
      | nil =>
        have hcl : pyStrIs (List.isEmpty ([] : List Chars)) w last
            ∨ (True ∧ pyStrIs false w first) := Or.inl (Or.inl rfl)
        have hcs : k = k + (w :: ([] : List Chars)).length - 1
            ∨ (w.length ≤ 1 ∧ (w = first ∨ w = last)) := by
          left
          simp
        rw [if_pos hcl, if_pos hcs]
        rfl
      | cons w2 t2 =>
        by_cases hkeep : w.length ≤ 1 ∧ (w = first ∨ w = last)
        · have hcl : pyStrIs (w2 :: t2).isEmpty w last
              ∨ (True ∧ pyStrIs false w first) :=
            (abbrevLoop_cond_tail w first last w2 t2).2 hkeep
          have hcs : k = k + (w :: w2 :: t2).length - 1
              ∨ (w.length ≤ 1 ∧ (w = first ∨ w = last)) := Or.inr hkeep
          rw [if_pos hcl, if_pos hcs]
          simp only []
          apply congrArg
          rw [ih (k + 1)]
          apply filterMap_congr_mem
          intro a _
          cases abbreviateWordO d a.2 with
          | some r2 => rfl
          | none =>
            have harith : k + 1 + (w2 :: t2).length - 1
                = k + (w :: w2 :: t2).length - 1 := by
              simp only [List.length_cons]
              omega
            rw [harith]
        · have hcl : ¬ (pyStrIs (w2 :: t2).isEmpty w last
              ∨ (True ∧ pyStrIs false w first)) :=
            fun hc => hkeep ((abbrevLoop_cond_tail w first last w2 t2).1 hc)
          have hcs : ¬ (k = k + (w :: w2 :: t2).length - 1
              ∨ (w.length ≤ 1 ∧ (w = first ∨ w = last))) := by
            rintro (h | h)
            · simp only [List.length_cons] at h
              omega
            · exact hkeep h
          rw [if_neg hcl, if_neg hcs]
          simp only []
          rw [ih (k + 1)]
          apply filterMap_congr_mem
          intro a _
          cases abbreviateWordO d a.2 with
          | some r2 => rfl
          | none =>
            have harith : k + 1 + (w2 :: t2).length - 1
                = k + (w :: w2 :: t2).length - 1 := by
              simp only [List.length_cons]
              omega
            rw [harith]

theorem abbrevLoop_eq_specKeptWords (d : JournalDicts) (parts : List Chars) :
    abbrevLoop d true (parts.headD []) (parts.getLast?.getD []) true parts
      = specKeptWords d parts := by
  cases parts with
  | nil => rfl
  | cons w rest =>
    have htail :
        abbrevLoop d true ((w :: rest).headD []) ((w :: rest).getLast?.getD [])
            false rest
          = (List.enumFrom 1 rest).filterMap (fun p =>
              match abbreviateWordO d p.2 with
              | some r => some (pyTitle r)
              | none =>
                if p.1 = 0 ∨ p.1 = (w :: rest).length - 1
                    ∨ (p.2.length ≤ 1 ∧ (p.2 = (w :: rest).headD []
                        ∨ p.2 = (w :: rest).getLast?.getD [])) then
                  some (pyTitle p.2)
                else none) := by
      rw [abbrevLoop_tail_eq d ((w :: rest).headD [])
        ((w :: rest).getLast?.getD []) rest 1]
      apply filterMap_congr_mem
      intro a ha
      cases abbreviateWordO d a.2 with
      | some r2 => rfl
      | none =>
        have hge : 1 ≤ a.1 := (List.mem_enumFrom ha).1
        have hcond : (a.1 = 1 + rest.length - 1
              ∨ (a.2.length ≤ 1 ∧ (a.2 = (w :: rest).headD []
                  ∨ a.2 = (w :: rest).getLast?.getD [])))
            ↔ (a.1 = 0 ∨ a.1 = (w :: rest).length - 1
              ∨ (a.2.length ≤ 1 ∧ (a.2 = (w :: rest).headD []
                  ∨ a.2 = (w :: rest).getLast?.getD []))) := by
          have hnum : (a.1 = 1 + rest.length - 1)
              ↔ (a.1 = 0 ∨ a.1 = (w :: rest).length - 1) := by
            simp only [List.length_cons]
            omega
          rw [hnum]
          tauto
        simp only [eq_iff_iff.2 hcond]
    unfold specKeptWords
    simp only [List.enum, List.enumFrom, List.filterMap_cons]
    cases hw : abbreviateWordO d w with
    | some r =>
      have hsk : specKeep d ((w :: rest).headD [])
          ((w :: rest).getLast?.getD []) (w :: rest).length 0 w
          = some (pyTitle r) := by
        unfold specKeep
        rw [hw]
      rw [hsk]
      simp only [abbrevLoop, hw]
      rw [htail]
      rfl
    | none =>
      have hsk : specKeep d ((w :: rest).headD [])
          ((w :: rest).getLast?.getD []) (w :: rest).length 0 w
          = some (pyTitle w) := by
        unfold specKeep
        rw [hw]
        exact if_pos (Or.inl rfl)
      rw [hsk]
      simp only [abbrevLoop, hw]
      rw [if_pos (abbrevLoop_cond_head w ((w :: rest).headD [])
        ((w :: rest).getLast?.getD []) rest)]
      rw [htail]
      rfl

theorem splitOnCharAux_ne_nil (sep : Char) :
    ∀ (l acc : Chars), splitOnCharAux sep l acc ≠ [] := by
  intro l
  induction l with
  | nil => intro acc; simp [splitOnCharAux]
  | cons c cs ih =>
    intro acc
    simp only [splitOnCharAux]
    by_cases h : (c == sep) = true
    · rw [if_pos h]; simp
    · rw [if_neg h]; exact ih (c :: acc)

theorem splitOnChar_cons (sep : Char) (l : Chars) :
    ∃ p0 rest, splitOnChar sep l = p0 :: rest := by
  cases h : splitOnChar sep l with
  | nil => exact absurd h (splitOnCharAux_ne_nil sep l [])
  | cons a b => exact ⟨a, b, rfl⟩

theorem abbreviateSubtitle_eq_words (d : JournalDicts) (i : Chars) (cfj : Bool)
    (h : cfj = true → getJournalAbbreviationO d i = none) :
    abbreviateSubtitle d i cfj
      = List.intercalate ['-'] ((splitOnChar '-' i).map (fun p =>
          List.intercalate [' '] (specKeptWords d (splitWords p)))) := by
  unfold abbreviateSubtitle
  have hnone : (if cfj then getJournalAbbreviationO d i else none) = none := by
    cases cfj with
    | false => rfl
    | true => simpa using h rfl
  rw [hnone]
  show List.intercalate ['-']
      ((splitOnChar '-' i).map (fun j => abbreviateParts d j true)) = _
  apply congrArg
  apply List.map_congr_left
  intro p _
  unfold abbreviateParts
  rw [abbrevLoop_eq_specKeptWords]

/-- Claim C7 as amended: when neither the whole name nor its first
subtitle segment is in the known-journal dictionary, a word with no
replacement in any of the four tiers is dropped from the output unless
the object-identity keep test fires: it is kept when it is the first or
the last word of its hyphen part (the first word of EVERY part of EVERY
subtitle segment is always kept, since forcePrintFirst is passed true
everywhere, not only for the first segment), and also when it is a word
of length at most one equal in value to the first or the last word of
its part, because CPython shares short string objects and the source
compares with the is operator. -/
theorem c7_journal_drop_rule (d : JournalDicts) (name : Chars)
    (h0 : d.journals (journalKey name) = none)
    (h1 : d.journals (journalKey ((splitOnChar ':' name).headD [])) = none) :
    getAbbreviation d name
      = List.intercalate [':', ' ']
          ((splitOnChar ':' name).map (fun seg =>
            List.intercalate ['-'] ((splitOnChar '-' seg).map (fun p =>
              List.intercalate [' '] (specKeptWords d (splitWords p)))))) := by
  obtain ⟨p0, rest, hsp⟩ := splitOnChar_cons ':' name
  have h1' : getJournalAbbreviationO d p0 = none := by
    unfold getJournalAbbreviationO
    rw [hsp] at h1
    exact h1
  unfold getAbbreviation getJournalAbbreviationO
  rw [h0, hsp]
  show List.intercalate [':', ' ']
      (abbreviateSubtitle d p0 true ::
        rest.map (fun i =>
          abbreviateSubtitle d i (decide (i.length ≤ 1 ∧ i = p0)))) = _
  simp only [List.map_cons]
  apply congrArg
  refine congrArg₂ _ ?_ ?_
  · exact abbreviateSubtitle_eq_words d p0 true (fun _ => h1')
  · apply List.map_congr_left
    intro i _
    apply abbreviateSubtitle_eq_words
    intro hflag
    have hip : i = p0 := (of_decide_eq_true hflag).2
    rw [hip]
    exact h1'

theorem c7_witness :
    getAbbreviation emptyDicts ("Abc Def".toList)
      = List.intercalate [':', ' ']
          ((splitOnChar ':' ("Abc Def".toList)).map (fun seg =>
            List.intercalate ['-'] ((splitOnChar '-' seg).map (fun p =>
              List.intercalate [' ']
                (specKeptWords emptyDicts (splitWords p)))))) :=
  c7_journal_drop_rule emptyDicts ("Abc Def".toList) rfl rfl

/-- Claim C7, counterexample: with empty dictionaries no word has a
replacement in any tier; the name with two subtitle segments keeps the
word Bbbb, first word of the second segment and not last of its
segment, though the claim keeps only the first word of the first
segment; and the single-segment name x y x z keeps the middle word x
(CPython shares the one-character string, so the middle x is the same
object as the first word and the is test fires) while dropping y,
giving X X Z where the claim requires X Z. -/
theorem c7_counterexample :
    abbreviateWordO emptyDicts ("Bbbb".toList) = none ∧
    getAbbreviation emptyDicts ("Aaaa: Bbbb Cccc".toList)
      = ("Aaaa: Bbbb Cccc".toList) ∧
    abbreviateWordO emptyDicts ("x".toList) = none ∧
    abbreviateWordO emptyDicts ("y".toList) = none ∧
    getAbbreviation emptyDicts ("x y x z".toList) = ("X X Z".toList) := by
  decide

/-! Claim C2: the ranking and classification of query results. -/

theorem insertByDesc_perm (x : Score × Chars) (l : List (Score × Chars)) :
    (insertByDesc x l).Perm (x :: l) := by
  induction l with
  | nil => exact List.Perm.refl _
  | cons y ys ih =>
    simp only [insertByDesc]
    by_cases h : x.1 < y.1
    · rw [if_pos h]
      exact (ih.cons y).trans (List.Perm.swap x y ys)
    · rw [if_neg h]

theorem sortByDesc_perm (l : List (Score × Chars)) : (sortByDesc l).Perm l := by
  induction l with
  | nil => exact List.Perm.refl _
  | cons x xs ih =>
    simp only [sortByDesc]
    exact (insertByDesc_perm x (sortByDesc xs)).trans (ih.cons x)

theorem pairwise_insertByDesc (x : Score × Chars) {l : List (Score × Chars)}
    (h : List.Pairwise (fun a b => b.1 ≤ a.1) l) :
    List.Pairwise (fun a b => b.1 ≤ a.1) (insertByDesc x l) := by
  induction l with
  | nil => simp [insertByDesc]
  | cons y ys ih =>
    rcases List.pairwise_cons.1 h with ⟨hy, hys⟩
    simp only [insertByDesc]
    by_cases hlt : x.1 < y.1
    · rw [if_pos hlt]
      refine List.pairwise_cons.2 ⟨?_, ih hys⟩
      intro b hb
      rcases List.mem_cons.1 ((insertByDesc_perm x ys).mem_iff.1 hb) with hb | hb
      · subst hb; exact le_of_lt hlt
      · exact hy b hb
    · rw [if_neg hlt]
      refine List.pairwise_cons.2 ⟨?_, h⟩
      intro b hb
      rcases List.mem_cons.1 hb with hb | hb
      · subst hb; exact le_of_not_lt hlt
      · exact (hy b hb).trans (le_of_not_lt hlt)

theorem sortByDesc_pairwise (l : List (Score × Chars)) :
    List.Pairwise (fun a b => b.1 ≤ a.1) (sortByDesc l) := by
  induction l with
  | nil => exact List.Pairwise.nil
  | cons x xs ih => exact pairwise_insertByDesc x ih

theorem filter_insertByDesc (x : Score × Chars) (l : List (Score × Chars))
    (q : Score) :
    (insertByDesc x l).filter (fun p => decide (p.1 = q))
      = if x.1 = q then x :: l.filter (fun p => decide (p.1 = q))
        else l.filter (fun p => decide (p.1 = q)) := by
  induction l with
  | nil =>
    by_cases hxq : x.1 = q
    · rw [if_pos hxq]
      simp only [insertByDesc, List.filter, decide_eq_true hxq]
    · rw [if_neg hxq]
      simp only [insertByDesc, List.filter, decide_eq_false hxq]
  | cons y ys ih =>
    simp only [insertByDesc]
    by_cases hlt : x.1 < y.1
    · rw [if_pos hlt]
      by_cases hxq : x.1 = q
      · have hyq : ¬(y.1 = q) := by
          intro h
          rw [hxq, h] at hlt
          exact lt_irrefl q hlt
        rw [if_pos hxq]
        simp only [List.filter, decide_eq_false hyq, ih, if_pos hxq]
      · rw [if_neg hxq]
        simp only [List.filter, ih, if_neg hxq]
    · rw [if_neg hlt]
      by_cases hxq : x.1 = q
      · rw [if_pos hxq]
        simp only [List.filter, decide_eq_true hxq]
      · rw [if_neg hxq]
        simp only [List.filter, decide_eq_false hxq]

theorem sortByDesc_stable (l : List (Score × Chars)) (q : Score) :
    (sortByDesc l).filter (fun p => decide (p.1 = q))
      = l.filter (fun p => decide (p.1 = q)) := by
  induction l with
  | nil => rfl
  | cons x xs ih =>
    simp only [sortByDesc]
    rw [filter_insertByDesc]
    by_cases hxq : x.1 = q
    · rw [if_pos hxq, ih]
      simp only [List.filter, decide_eq_true hxq]
    · rw [if_neg hxq, ih]
      simp only [List.filter, decide_eq_false hxq]

theorem overlapO_eq_some {lookup : Chars} (h : (citWords lookup).isEmpty = false)
    (c : Chars) : overlapO lookup c = some (overlapVal lookup c) := by
  unfold overlapO
  rw [h]
  simp

theorem scoreAllO_eq {lookup : Chars} (h : (citWords lookup).isEmpty = false) :
    ∀ cands : List Chars,
      scoreAllO lookup cands
        = some (cands.map (fun c => (overlapVal lookup c, c))) := by
  intro cands
  induction cands with
  | nil => rfl
  | cons c cs ih =>
    simp only [scoreAllO, overlapO_eq_some h, ih, List.map_cons]

theorem getBestQueryResultO_some {lookup : Chars} {cands : List Chars}
    {autoMin autoMax : Score} {scored : List (Score × Chars)}
    (h : scoreAllO lookup cands = some scored) :
    getBestQueryResultO lookup cands autoMin autoMax
      = match sortByDesc scored with
        | [] => some .empty
        | [r] =>
          if autoMin ≤ r.1 then some (.accept r.2) else some .interactive
        | r1 :: r2 :: _ =>
          if autoMin ≤ r1.1 then
            if r1.1 = 0 then none
            else if r2.1 / r1.1 < autoMax then some (.accept r1.2)
            else some .interactive
          else some .interactive := by
  unfold getBestQueryResultO
  rw [h]

/-- Claim C2 as amended: for every lookup string containing at least one
word character and every positive autoSaveMinimum threshold (the
documented thresholds lie in the unit interval, with defaults 0.99 and
0.7), _getBestQueryResult pairs each candidate with its overlap score
against the lookup and sorts the pairs stably by descending score, then
accepts the single candidate when there is exactly one and its score is
at least autoMin, accepts the best candidate when there are several, the
best score is at least autoMin and second-best over best is below
autoMax, otherwise defers to the interactive disambiguation step when at
least one candidate exists, and yields no selection when there are no
candidates.  The sorted list is a permutation of the scored pairs,
descending in score, and candidates of equal score keep their original
order. -/
theorem c2_classification (lookup : Chars) (cands : List Chars)
    (autoMin autoMax : Score)
    (hw : ∃ c ∈ lookup, pyWordChar c = true) (hmin : 0 < autoMin) :
    getBestQueryResultO lookup cands autoMin autoMax
      = some (specClassify
          (sortByDesc (cands.map (fun c => (overlapVal lookup c, c))))
          autoMin autoMax) ∧
    (sortByDesc (cands.map (fun c => (overlapVal lookup c, c)))).Perm
      (cands.map (fun c => (overlapVal lookup c, c))) ∧
    List.Pairwise (fun a b => b.1 ≤ a.1)
      (sortByDesc (cands.map (fun c => (overlapVal lookup c, c)))) ∧
    ∀ q : Score,
      (sortByDesc (cands.map (fun c => (overlapVal lookup c, c)))).filter
          (fun p => decide (p.1 = q))
        = (cands.map (fun c => (overlapVal lookup c, c))).filter
            (fun p => decide (p.1 = q)) := by
  obtain ⟨c, hm, hwc⟩ := hw
  have hlk : (citWords lookup).isEmpty = false :=
    isEmpty_false_of_ne (citWords_ne_nil hm hwc)
  refine ⟨?_, sortByDesc_perm _, sortByDesc_pairwise _,
    fun q => sortByDesc_stable _ q⟩
  rw [getBestQueryResultO_some (scoreAllO_eq hlk cands)]
  cases hres : sortByDesc (cands.map (fun c => (overlapVal lookup c, c))) with
  | nil => rfl
  | cons r1 tl =>
    cases tl with
    | nil =>
      show (if autoMin ≤ r1.1 then some (QueryDecision.accept r1.2)
            else some QueryDecision.interactive)
          = some (if autoMin ≤ r1.1 then QueryDecision.accept r1.2
                  else QueryDecision.interactive)
      by_cases h1 : autoMin ≤ r1.1
      · rw [if_pos h1, if_pos h1]
      · rw [if_neg h1, if_neg h1]
    | cons r2 tl2 =>
      show (if autoMin ≤ r1.1 then
              if r1.1 = 0 then none
              else if r2.1 / r1.1 < autoMax then some (QueryDecision.accept r1.2)
              else some QueryDecision.interactive
            else some QueryDecision.interactive)
          = some (if autoMin ≤ r1.1 ∧ r2.1 / r1.1 < autoMax then
                    QueryDecision.accept r1.2
                  else QueryDecision.interactive)
      by_cases h1 : autoMin ≤ r1.1
      · have hnz : ¬(r1.1 = 0) := by
          intro h0
          rw [h0] at h1
          exact absurd (lt_of_lt_of_le hmin h1) (lt_irrefl 0)
        rw [if_pos h1, if_neg hnz]
        by_cases h2 : r2.1 / r1.1 < autoMax
        · rw [if_pos h2, if_pos ⟨h1, h2⟩]
        · rw [if_neg h2, if_neg (fun hh => h2 hh.2)]
      · rw [if_neg h1, if_neg (fun hh => h1 hh.1)]

theorem c2_witness :
    getBestQueryResultO ("a b".toList) ["a b".toList, "c".toList]
        (99 / 100) (7 / 10)
      = some (specClassify
          (sortByDesc (["a b".toList, "c".toList].map
            (fun c => (overlapVal ("a b".toList) c, c))))
          (99 / 100) (7 / 10)) :=
  (c2_classification ("a b".toList) ["a b".toList, "c".toList]
    (99 / 100) (7 / 10) ⟨'a', by decide, by decide⟩ (by norm_num)).1

/-- Claim C2, counterexample: the classification is not total in the
lookup and the thresholds.  A lookup with no word character makes the
overlap scoring raise a ZeroDivisionError before any decision, and a
zero best score combined with a non-positive autoSaveMinimum makes the
second-best over best ratio raise, so in both cases the call fails
instead of accepting or deferring as the claim requires. -/
theorem c2_counterexample :
    getBestQueryResultO ("!!!".toList) ["x".toList] (99 / 100) (7 / 10)
        = none ∧
    getBestQueryResultO ("a".toList) ["b".toList, "c".toList] 0 (7 / 10)
        = none := by
  constructor
  · show getBestQueryResultO ['!', '!', '!'] [['x']] (99 / 100) (7 / 10) = none
    have hc : citWords ['!', '!', '!'] = [] := by decide
    have h0 : scoreAllO ['!', '!', '!'] [['x']] = none := by
      simp [scoreAllO, overlapO, hc]
    unfold getBestQueryResultO
    rw [h0]
  · show getBestQueryResultO ['a'] [['b'], ['c']] 0 (7 / 10) = none
    have hova : overlapVal ['a'] ['b'] = 0 := by
      unfold overlapVal
      rw [show citWords ['a'] = [['a']] from by decide,
          show citWords ['b'] = [['b']] from by decide]
      have hmem : ¬((['a'] : Chars) ∈ ([['b']] : List Chars)) := by decide
      simp [hmem]
    have hovb : overlapVal ['a'] ['c'] = 0 := by
      unfold overlapVal
      rw [show citWords ['a'] = [['a']] from by decide,
          show citWords ['c'] = [['c']] from by decide]
      have hmem : ¬((['a'] : Chars) ∈ ([['c']] : List Chars)) := by decide
      simp [hmem]
    have hcw : (citWords ['a']).isEmpty = false := by decide
    have hsc : scoreAllO ['a'] [['b'], ['c']]
        = some [((0 : Score), (['b'] : Chars)), ((0 : Score), (['c'] : Chars))] := by
      rw [scoreAllO_eq hcw]
      simp [hova, hovb]
    unfold getBestQueryResultO
    rw [hsc]
    have hsort : sortByDesc
          [((0 : Score), (['b'] : Chars)), ((0 : Score), (['c'] : Chars))]
        = [((0 : Score), (['b'] : Chars)), ((0 : Score), (['c'] : Chars))] := by
      simp [sortByDesc, insertByDesc]
    simp only [hsort]
    simp

/-! Claim C3: DOI extraction. -/

theorem drop_length_takeWhile (p : Char → Bool) (l : Chars) :
    l.drop (l.takeWhile p).length = l.dropWhile p := by
  induction l with
  | nil => rfl
  | cons c cs ih =>
    by_cases h : p c = true
    · simp [List.takeWhile_cons, List.dropWhile_cons, h, ih]
    · have h' : p c = false := by
        cases hx : p c with
        | true => exact absurd hx h
        | false => rfl
      simp [List.takeWhile_cons, List.dropWhile_cons, h']

theorem take_length_takeWhile (p : Char → Bool) (l : Chars) :
    l.take (l.takeWhile p).length = l.takeWhile p := by
  induction l with
  | nil => rfl
  | cons c cs ih =>
    by_cases h : p c = true
    · simp [List.takeWhile_cons, h, ih]
    · have h' : p c = false := by
        cases hx : p c with
        | true => exact absurd hx h
        | false => rfl
      simp [List.takeWhile_cons, h']

theorem doiMatchAt_spec {s : Chars} {i L : Nat}
    (h : doiMatchAt s i = some L) :
    ∃ ds t : Chars,
      (s.drop i).take L = ['1', '0', '.'] ++ ds ++ '/' :: t ∧
      ds ≠ [] ∧ (∀ c ∈ ds, digitOrDot c = true) ∧
      t ≠ [] ∧ (∀ c ∈ t, pyIsSpace c = false) ∧
      L = 3 + ds.length + 1 + t.length := by
  unfold doiMatchAt at h
  simp only [] at h
  by_cases h3 : (s.drop i).take 3 = ['1', '0', '.']
  · rw [if_pos h3] at h
    by_cases hde : ((s.drop i).drop 3).takeWhile digitOrDot = []
    · have hdeE : (((s.drop i).drop 3).takeWhile digitOrDot).isEmpty = true := by
        rw [hde]
        rfl
      rw [if_pos hdeE] at h
      exact absurd h (by simp)
    · have hdeE : (((s.drop i).drop 3).takeWhile digitOrDot).isEmpty = false :=
        isEmpty_false_of_ne hde
      rw [hdeE] at h
      rw [if_neg (by simp)] at h
      set rest := s.drop i with hrest
      set ds := (rest.drop 3).takeWhile digitOrDot with hds
      cases hdr : rest.drop (3 + ds.length) with
      | nil =>
        rw [hdr] at h
        exact absurd h (by simp)
      | cons c0 rest2 =>
        rw [hdr] at h
        simp only [] at h
        by_cases hc0 : c0 = '/'
        · rw [if_pos hc0] at h
          subst hc0
          set t := rest2.takeWhile (fun c => !pyIsSpace c) with ht
          by_cases hte : t = []
          · have hteE : t.isEmpty = true := by rw [hte]; rfl
            rw [if_pos hteE] at h
            exact absurd h (by simp)
          · have hteE : t.isEmpty = false := isEmpty_false_of_ne hte
            rw [hteE] at h
            rw [if_neg (by simp)] at h
            have hL : L = 3 + ds.length + 1 + t.length :=
              (Option.some.inj h).symm
            have hB : rest.drop 3 = ds ++ ('/' :: (t ++ rest2.drop t.length)) := by
              have b1 : rest.drop 3
                  = (rest.drop 3).take ds.length ++ (rest.drop 3).drop ds.length :=
                (List.take_append_drop _ _).symm
              have b2 : (rest.drop 3).take ds.length = ds := by
                rw [hds]
                exact take_length_takeWhile _ _
              have b3 : (rest.drop 3).drop ds.length = '/' :: rest2 := by
                rw [List.drop_drop]
                exact hdr
              have b4 : rest2 = t ++ rest2.drop t.length := by
                have c2 : rest2.take t.length = t := by
                  rw [ht]
                  exact take_length_takeWhile _ _
                conv_lhs => rw [← List.take_append_drop t.length rest2]
                rw [c2]
              calc rest.drop 3
                  = (rest.drop 3).take ds.length ++ (rest.drop 3).drop ds.length := b1
                _ = ds ++ ('/' :: rest2) := by rw [b2, b3]
                _ = ds ++ ('/' :: (t ++ rest2.drop t.length)) := by rw [← b4]
            refine ⟨ds, t, ?_, hde, ?_, hte, ?_, hL⟩
            · have e1 : rest.take L
                  = rest.take 3 ++ (rest.drop 3).take (ds.length + (1 + t.length)) := by
                have hLs : L = 3 + (ds.length + (1 + t.length)) := by omega
                rw [hLs, List.take_add]
              have e3 : ('/' :: (t ++ rest2.drop t.length)).take (1 + t.length)
                  = '/' :: t := by
                have h1t : 1 + t.length = t.length + 1 := by omega
                rw [h1t, List.take_succ_cons, List.take_left]
              have e2 : (rest.drop 3).take (ds.length + (1 + t.length))
                  = ds ++ ('/' :: t) := by
                rw [hB, List.take_add, List.take_left, List.drop_left, e3]
              rw [e1, e2, h3]
              simp
            · intro c hc
              exact List.mem_takeWhile_imp (hds ▸ hc)
            · intro c hc
              have := List.mem_takeWhile_imp (ht ▸ hc)
              simpa using this
        · rw [if_neg hc0] at h
          exact absurd h (by simp)
  · rw [if_neg h3] at h
    exact absurd h (by simp)

theorem doiMatchAt_lt_length {s : Chars} {i L : Nat}
    (h : doiMatchAt s i = some L) : i < s.length := by
  obtain ⟨ds, t, heq, -, -, -, -, -⟩ := doiMatchAt_spec h
  by_contra hge
  push_neg at hge
  have hnil : s.drop i = [] := List.drop_eq_nil_of_le hge
  rw [hnil] at heq
  simp at heq

theorem doiScanAux_sound {s : Chars} :
    ∀ (fuel i : Nat) {d : Chars}, doiScanAux s fuel i = some d →
      ∃ j L, doiMatchAt s j = some L ∧ doiValidStart s j = true ∧
        d = doiRstrip (subAt s j L) := by
  intro fuel
  induction fuel with
  | zero =>
    intro i d h
    exact absurd h (by simp [doiScanAux])
  | succ f ih =>
    intro i d h
    unfold doiScanAux at h
    by_cases hi : s.length < i
    · rw [if_pos hi] at h
      exact absurd h (by simp)
    · rw [if_neg hi] at h
      cases hm : doiMatchAt s i with
      | some L =>
        rw [hm] at h
        simp only [] at h
        by_cases hv : doiValidStart s i = true
        · rw [if_pos hv] at h
          exact ⟨i, L, hm, hv, (Option.some.inj h).symm⟩
        · rw [if_neg hv] at h
          exact ih _ h
      | none =>
        rw [hm] at h
        exact ih _ h

theorem doiScanAux_none {s : Chars} (hall : ∀ i, doiMatchAt s i = none) :
    ∀ fuel i, doiScanAux s fuel i = none := by
  intro fuel
  induction fuel with
  | zero => intro i; rfl
  | succ f ih =>
    intro i
    unfold doiScanAux
    by_cases hi : s.length < i
    · rw [if_pos hi]
    · rw [if_neg hi, hall i]
      exact ih (i + 1)

theorem doiScanAux_reach {s : Chars} {i L : Nat}
    (hm : doiMatchAt s i = some L) (hv : doiValidStart s i = true)
    (hnone : ∀ k, k < i → doiMatchAt s k = none) :
    ∀ fuel j, j ≤ i → i - j < fuel →
      doiScanAux s fuel j = some (doiRstrip (subAt s i L)) := by
  have hle : i < s.length := doiMatchAt_lt_length hm
  intro fuel
  induction fuel with
  | zero =>
    intro j hj hfuel
    omega
  | succ f ih =>
    intro j hj hfuel
    unfold doiScanAux
    have hguard : ¬(s.length < j) := by omega
    rw [if_neg hguard]
    by_cases hji : j = i
    · subst hji
      rw [hm]
      simp only []
      rw [if_pos hv]
    · have hjlt : j < i := lt_of_le_of_ne hj hji
      rw [hnone j hjlt]
      exact ih (j + 1) (by omega) (by omega)

theorem doiValidStart_spec {s : Chars} {j : Nat} (hjl : j < s.length)
    (hv : doiValidStart s j = true) :
    j = 0 ∨ ∃ ch, s.get? (j - 1) = some ch ∧ pyWordChar ch = false := by
  cases j with
  | zero => exact Or.inl rfl
  | succ k =>
    right
    unfold doiValidStart at hv
    simp only [] at hv
    cases hg : s.get? k with
    | none =>
      have hlen : s.length ≤ k := List.get?_eq_none.1 hg
      omega
    | some c =>
      rw [hg] at hv
      refine ⟨c, hg, ?_⟩
      simpa using hv

/-- Claim C3 as amended: doiExtract returns a match of the DOI pattern
(ten, dot, a nonempty run of digits and dots, a slash, a nonempty run of
non-space characters) whose immediately preceding character, if any, is
not a word character (alphanumeric or underscore, so the underscore also
blocks a match), with trailing hyphen, dot and slash characters trimmed;
when the string contains no occurrence of the pattern at all the call
fails with NotFound; when the leftmost occurrence of the pattern has a
valid start it is the one returned; and the claim's example x10.1000/abc,
whose match is preceded by the alphanumeric x, fails. -/
theorem c3_doiExtract (s : Chars) :
    (∀ d, doiExtract s = some d →
      ∃ j L ds t, doiMatchAt s j = some L ∧
        (s.drop j).take L = ['1', '0', '.'] ++ ds ++ '/' :: t ∧
        ds ≠ [] ∧ (∀ c ∈ ds, digitOrDot c = true) ∧
        t ≠ [] ∧ (∀ c ∈ t, pyIsSpace c = false) ∧
        (j = 0 ∨ ∃ ch, s.get? (j - 1) = some ch ∧ pyWordChar ch = false) ∧
        d = doiRstrip (subAt s j L)) ∧
    ((∀ i, doiMatchAt s i = none) → doiExtract s = none) ∧
    (∀ i L, doiMatchAt s i = some L → (∀ k, k < i → doiMatchAt s k = none) →
      doiValidStart s i = true →
      doiExtract s = some (doiRstrip (subAt s i L))) ∧
    doiExtract ("x10.1000/abc".toList) = none := by
  refine ⟨?_, ?_, ?_, by decide⟩
  · intro d hd
    obtain ⟨j, L, hm, hv, hd'⟩ := doiScanAux_sound (s.length + 2) 0 hd
    obtain ⟨ds, t, heq, hds, hdsall, ht, htall, -⟩ := doiMatchAt_spec hm
    exact ⟨j, L, ds, t, hm, heq, hds, hdsall, ht, htall,
      doiValidStart_spec (doiMatchAt_lt_length hm) hv, hd'⟩
  · intro hall
    exact doiScanAux_none hall (s.length + 2) 0
  · intro i L hm hnone hv
    have hlt := doiMatchAt_lt_length hm
    exact doiScanAux_reach hm hv hnone (s.length + 2) 0 (by omega) (by omega)

theorem c3_witness :
    doiExtract ("see 10.1000/xyz.".toList) = some ("10.1000/xyz".toList) :=
  (c3_doiExtract ("see 10.1000/xyz.".toList)).2.2.1 4 12 (by decide)
    (by
      intro k hk
      interval_cases k <;> decide)
    (by decide)

/-- Claim C3, counterexample: a DOI-shaped substring starts at position
one of underscore-10.1000/abc and its preceding character, the
underscore, is not alphanumeric, so the claim requires the match to be
returned; the code rejects it because the validation tests the Python
word class, which also contains the underscore, and the call fails. -/
theorem c3_counterexample :
    doiMatchAt ("_10.1000/abc".toList) 1 = some 11 ∧
    Char.isAlphanum '_' = false ∧
    doiExtract ("_10.1000/abc".toList) = none := by decide

/-! Claim C4: arXiv identifier boundaries. -/

/-- Specification-side end-boundary condition of the claim at match-end
position e: the character immediately after the identifier, if any, is
not alphanumeric unless it begins a version suffix letter-v-digit. -/
def specEndOk (s : Chars) (e : Nat) : Prop :=
  ∀ c rest, s.drop e = c :: rest →
    c.isAlphanum = false ∨
    ((c = 'v' ∨ c = 'V') ∧ ∃ d rest2, rest = d :: rest2 ∧ d.isDigit = true)

theorem not_word_not_alnum {c : Char} (h : pyWordChar c = false) :
    c.isAlphanum = false := by
  unfold pyWordChar at h
  exact (Bool.or_eq_false_iff.1 h).1

theorem lt_length_of_drop_ne_nil {s : Chars} {j : Nat}
    (h : s.drop j ≠ []) : j < s.length := by
  by_contra hle
  push_neg at hle
  exact h (List.drop_eq_nil_of_le hle)

theorem arxivValidEndAt_spec {s : Chars} {e : Nat}
    (h : arxivValidEndAt s e = true) : specEndOk s e := by
  intro c rest hd
  unfold arxivValidEndAt at h
  rw [hd] at h
  simp only [] at h
  rw [Bool.or_eq_true] at h
  rcases h with h1 | h1
  · left
    exact not_word_not_alnum (by simpa using h1)
  · right
    rw [Bool.and_eq_true] at h1
    rcases h1 with ⟨hv, hdig⟩
    constructor
    · rw [Bool.or_eq_true] at hv
      rcases hv with hv | hv
      · exact Or.inl (by simpa using hv)
      · exact Or.inr (by simpa using hv)
    · cases hr : rest with
      | nil =>
        rw [hr] at hdig
        exact absurd hdig (by simp)
      | cons d rest2 =>
        rw [hr] at hdig
        exact ⟨d, rest2, rfl, hdig⟩

theorem arxivValidStartAt_spec {s : Chars} {j : Nat} (hjl : j < s.length)
    (hv : arxivValidStartAt s j = true) :
    j = 0 ∨ ∃ ch, s.get? (j - 1) = some ch ∧ ch.isAlphanum = false := by
  cases j with
  | zero => exact Or.inl rfl
  | succ k =>
    right
    unfold arxivValidStartAt at hv
    simp only [] at hv
    cases hg : s.get? k with
    | none =>
      have hlen : s.length ≤ k := List.get?_eq_none.1 hg
      omega
    | some c =>
      rw [hg] at hv
      exact ⟨c, hg, not_word_not_alnum (by simpa using hv)⟩

theorem arxivNewMatchAt_lt {s : Chars} {j : Nat}
    (h : arxivNewMatchAt s j = true) : j < s.length := by
  refine lt_length_of_drop_ne_nil (fun hnil => ?_)
  unfold arxivNewMatchAt at h
  rw [hnil] at h
  exact absurd h (by simp)

theorem arxivNewScanAux_sound {s : Chars} :
    ∀ (fuel i : Nat) {id : Chars}, arxivNewScanAux s fuel i = some id →
      ∃ j, arxivNewMatchAt s j = true ∧ arxivValidStartAt s j = true ∧
        arxivValidEndAt s (j + 9) = true ∧ id = subAt s j 9 := by
  intro fuel
  induction fuel with
  | zero =>
    intro i id h
    exact absurd h (by simp [arxivNewScanAux])
  | succ f ih =>
    intro i id h
    unfold arxivNewScanAux at h
    by_cases hi : s.length < i
    · rw [if_pos hi] at h
      exact absurd h (by simp)
    · rw [if_neg hi] at h
      by_cases hm : arxivNewMatchAt s i = true
      · rw [if_pos hm] at h
        by_cases hb : (arxivValidStartAt s i && arxivValidEndAt s (i + 9)) = true
        · rw [if_pos hb] at h
          rw [Bool.and_eq_true] at hb
          rcases hb with ⟨h1, h2⟩
          exact ⟨i, hm, h1, h2, (Option.some.inj h).symm⟩
        · rw [if_neg hb] at h
          exact ih _ h
      · rw [if_neg hm] at h
        exact ih _ h

theorem arxivOldSearchAux_sound {s : Chars} :
    ∀ (fuel i : Nat) {j L : Nat}, arxivOldSearchAux s fuel i = some (j, L) →
      arxivOldMatchAt s j = some L := by
  intro fuel
  induction fuel with
  | zero =>
    intro i j L h
    exact absurd h (by simp [arxivOldSearchAux])
  | succ f ih =>
    intro i j L h
    unfold arxivOldSearchAux at h
    by_cases hi : s.length < i
    · rw [if_pos hi] at h
      exact absurd h (by simp)
    · rw [if_neg hi] at h
      cases hm : arxivOldMatchAt s i with
      | some len =>
        rw [hm] at h
        simp only [] at h
        have hij := Prod.mk.inj (Option.some.inj h)
        rw [← hij.1, ← hij.2]
        exact hm
      | none =>
        rw [hm] at h
        exact ih _ h

theorem extractOldFormat_sound {s : Chars} {id : Chars}
    (h : extractOldFormat s = some id) :
    ∃ j L, arxivOldMatchAt s j = some L ∧
      (id.takeWhile (fun c => c != '/')) ∈ arxivSubjects ∧
      arxivValidEndAt s (j + L) = true ∧ id = subAt s j L := by
  unfold extractOldFormat at h
  cases hs : arxivOldSearchAux s (s.length + 2) 0 with
  | none =>
    rw [hs] at h
    exact absurd h (by simp)
  | some jl =>
    rw [hs] at h
    simp only [] at h
    obtain ⟨j, L⟩ := jl
    by_cases hc : (decide ((subAt s j L).takeWhile (fun c => c != '/') ∈ arxivSubjects)
        && arxivValidEndAt s (j + L)) = true
    · rw [if_pos hc] at h
      rw [Bool.and_eq_true] at hc
      rcases hc with ⟨h1, h2⟩
      have hid : id = subAt s j L := (Option.some.inj h).symm
      refine ⟨j, L, arxivOldSearchAux_sound _ _ hs, ?_, h2, hid⟩
      rw [hid]
      exact of_decide_eq_true h1
    · rw [if_neg hc] at h
      exact absurd h (by simp)

/-- Claim C4 as amended: every identifier returned by extractArxivId
satisfies the end boundary condition — the character immediately after
the matched identifier, if any, is non-alphanumeric unless it begins a
version suffix letter-v-digit (either case of v) — and a new-format
identifier additionally satisfies the start condition that the character
immediately before it, if any, is non-alphanumeric; the start condition
is not enforced for old-format identifiers, where a digit immediately
before the match is accepted (see the counterexample). -/
theorem c4_arxiv_boundaries (s : Chars) :
    (∀ id, extractNewFormat s = some id →
      ∃ j, id = subAt s j 9 ∧
        (j = 0 ∨ ∃ ch, s.get? (j - 1) = some ch ∧ ch.isAlphanum = false) ∧
        specEndOk s (j + 9)) ∧
    (∀ id, extractOldFormat s = some id →
      ∃ j L, id = subAt s j L ∧
        (id.takeWhile (fun c => c != '/')) ∈ arxivSubjects ∧
        specEndOk s (j + L)) ∧
    (∀ id, arxivExtract s = some id →
      ∃ j L, id = subAt s j L ∧ specEndOk s (j + L)) := by
  have hnew : ∀ id, extractNewFormat s = some id →
      ∃ j, id = subAt s j 9 ∧
        (j = 0 ∨ ∃ ch, s.get? (j - 1) = some ch ∧ ch.isAlphanum = false) ∧
        specEndOk s (j + 9) := by
    intro id h
    obtain ⟨j, hm, hstart, hend, hid⟩ :=
      arxivNewScanAux_sound (s.length + 2) 0 h
    exact ⟨j, hid,
      arxivValidStartAt_spec (arxivNewMatchAt_lt hm) hstart,
      arxivValidEndAt_spec hend⟩
  have hold : ∀ id, extractOldFormat s = some id →
      ∃ j L, id = subAt s j L ∧
        (id.takeWhile (fun c => c != '/')) ∈ arxivSubjects ∧
        specEndOk s (j + L) := by
    intro id h
    obtain ⟨j, L, hm, hsub, hend, hid⟩ := extractOldFormat_sound h
    exact ⟨j, L, hid, hsub, arxivValidEndAt_spec hend⟩
  refine ⟨hnew, hold, ?_⟩
  intro id h
  unfold arxivExtract at h
  cases hn : extractNewFormat s with
  | some res =>
    rw [hn] at h
    obtain ⟨j, hid, -, hendok⟩ := hnew res hn
    have : id = res := (Option.some.inj h).symm
    subst this
    exact ⟨j, 9, hid, hendok⟩
  | none =>
    rw [hn] at h
    obtain ⟨j, L, hid, -, hendok⟩ := hold id h
    exact ⟨j, L, hid, hendok⟩

theorem c4_witness :
    ∃ j, ("1234.5678".toList) = subAt ("a 1234.5678v2 b".toList) j 9 ∧
      (j = 0 ∨ ∃ ch, ("a 1234.5678v2 b".toList).get? (j - 1) = some ch ∧
        ch.isAlphanum = false) ∧
      specEndOk ("a 1234.5678v2 b".toList) (j + 9) :=
  (c4_arxiv_boundaries ("a 1234.5678v2 b".toList)).1
    ("1234.5678".toList) (by decide)

/-- Claim C4, counterexample: the old-format extraction never validates
the start of the match, so on 9cs/1234567 the identifier cs/1234567 is
returned although the character immediately before it is the
alphanumeric digit nine, against the claim's start condition for both
formats. -/
theorem c4_counterexample :
    arxivExtract ("9cs/1234567".toList) = some ("cs/1234567".toList) ∧
    ("9cs/1234567".toList).get? 0 = some '9' ∧
    Char.isAlphanum '9' = true := by decide

/-! Claims C1 and C8: the tidy pass and the publisher backfill.
First the normal-form theory of the whitespace normalisation. -/

/-- Adjacent-pair condition of a normalised string: no two consecutive
whitespace characters. -/
def adjOk (a b : Char) : Prop := (pyIsSpace a && pyIsSpace b) = false

/-- Every whitespace character of the list is a plain space. -/
def allWsSpace (l : Chars) : Prop := ∀ c ∈ l, pyIsSpace c = true → c = ' '

/-- The first character, if any, is not whitespace. -/
def headNotWs (l : Chars) : Prop :=
  ∀ c rest, l = c :: rest → pyIsSpace c = false

/-- Normal form reached by the whitespace pass of tidy: whitespace only
as isolated single spaces, none at either end. -/
def normalizedWs (l : Chars) : Prop :=
  allWsSpace l ∧ List.Chain' adjOk l ∧ headNotWs l ∧ headNotWs l.reverse

theorem collapseWs_allWsSpace : ∀ (b : Bool) (l : Chars),
    allWsSpace (collapseWs b l) := by
  intro b l
  induction l generalizing b with
  | nil => intro c hc; exact absurd hc (List.not_mem_nil c)
  | cons c cs ih =>
    intro x hx hxs
    simp only [collapseWs] at hx
    by_cases hc : pyIsSpace c = true
    · rw [if_pos hc] at hx
      by_cases hb : b = true
      · rw [if_pos hb] at hx
        exact ih true x hx hxs
      · rw [if_neg hb] at hx
        rcases List.mem_cons.1 hx with h | h
        · exact h
        · exact ih true x h hxs
    · rw [if_neg hc] at hx
      rcases List.mem_cons.1 hx with h | h
      · subst h
        rw [hxs] at hc
        exact absurd rfl hc
      · exact ih false x h hxs

theorem collapseWs_true_headNotWs : ∀ l : Chars,
    headNotWs (collapseWs true l) := by
  intro l
  induction l with
  | nil => intro c rest h; exact absurd h (by simp [collapseWs])
  | cons c cs ih =>
    intro x rest h
    simp only [collapseWs] at h
    by_cases hc : pyIsSpace c = true
    · rw [if_pos hc] at h
      simp only [if_true] at h
      exact ih x rest h
    · rw [if_neg hc] at h
      have hx : x = c := ((List.cons.inj h).1).symm
      subst hx
      cases hv : pyIsSpace x with
      | true => exact absurd hv hc
      | false => rfl

theorem collapseWs_chain : ∀ (b : Bool) (l : Chars),
    List.Chain' adjOk (collapseWs b l) := by
  intro b l
  induction l generalizing b with
  | nil => exact List.chain'_nil
  | cons c cs ih =>
    simp only [collapseWs]
    by_cases hc : pyIsSpace c = true
    · rw [if_pos hc]
      by_cases hb : b = true
      · rw [if_pos hb]
        exact ih true
      · rw [if_neg hb]
        refine List.chain'_cons'.2 ⟨?_, ih true⟩
        intro y hy
        have hhd : pyIsSpace y = false := by
          cases hhead : collapseWs true cs with
          | nil => rw [hhead] at hy; exact absurd hy (by simp)
          | cons z zs =>
            rw [hhead] at hy
            have hzy : z = y := by simpa using hy
            subst hzy
            exact collapseWs_true_headNotWs cs z zs hhead
        unfold adjOk
        rw [hhd]
        simp
    · rw [if_neg hc]
      refine List.chain'_cons'.2 ⟨?_, ih false⟩
      intro y _
      unfold adjOk
      cases hv : pyIsSpace c with
      | true => exact absurd hv hc
      | false => simp

theorem mem_dropWhile_imp_mem {p : Char → Bool} :
    ∀ {l : Chars} {c : Char}, c ∈ l.dropWhile p → c ∈ l := by
  intro l
  induction l with
  | nil => intro c hc; exact absurd hc (by simp)
  | cons d ds ih =>
    intro c hc
    simp only [List.dropWhile_cons] at hc
    by_cases hd : p d = true
    · rw [if_pos hd] at hc
      exact List.mem_cons_of_mem d (ih hc)
    · rw [if_neg hd] at hc
      exact hc

theorem chain_dropWhile {p : Char → Bool} :
    ∀ {l : Chars}, List.Chain' adjOk l → List.Chain' adjOk (l.dropWhile p) := by
  intro l
  induction l with
  | nil => intro h; exact h
  | cons d ds ih =>
    intro h
    simp only [List.dropWhile_cons]
    by_cases hd : p d = true
    · rw [if_pos hd]
      exact ih (List.chain'_cons'.1 h).2
    · rw [if_neg hd]
      exact h

theorem headNotWs_dropWhile_space (l : Chars) :
    headNotWs (l.dropWhile pyIsSpace) := by
  induction l with
  | nil => intro c rest h; exact absurd h (by simp)
  | cons d ds ih =>
    intro c rest h
    simp only [List.dropWhile_cons] at h
    by_cases hd : pyIsSpace d = true
    · rw [if_pos hd] at h
      exact ih c rest h
    · rw [if_neg hd] at h
      have : c = d := ((List.cons.inj h).1).symm
      subst this
      cases hv : pyIsSpace c with
      | true => exact absurd hv hd
      | false => rfl

theorem chain_reverse_adjOk {l : Chars} (h : List.Chain' adjOk l) :
    List.Chain' adjOk l.reverse := by
  rw [List.chain'_reverse]
  refine h.imp ?_
  intro a b hab
  show (pyIsSpace b && pyIsSpace a) = false
  rw [Bool.and_comm]
  exact hab

theorem tidyObject_aux_normalized (l : Chars) :
    normalizedWs (stripWs (collapseWs false l)) := by
  set m := collapseWs false l with hm
  have hmAll : allWsSpace m := collapseWs_allWsSpace false l
  have hmChain : List.Chain' adjOk m := collapseWs_chain false l
  set d1 := m.dropWhile pyIsSpace with hd1
  have hd1All : allWsSpace d1 := fun c hc => hmAll c (mem_dropWhile_imp_mem hc)
  have hd1Chain : List.Chain' adjOk d1 := chain_dropWhile hmChain
  have hd1Head : headNotWs d1 := headNotWs_dropWhile_space m
  set d2 := d1.reverse.dropWhile pyIsSpace with hd2
  have hd2All : allWsSpace d2 := fun c hc =>
    hd1All c (List.mem_reverse.1 (mem_dropWhile_imp_mem hc))
  have hd2Chain : List.Chain' adjOk d2 :=
    chain_dropWhile (chain_reverse_adjOk hd1Chain)
  have hd2Head : headNotWs d2 := headNotWs_dropWhile_space d1.reverse
  have hstrip : stripWs m = d2.reverse := rfl
  rw [hstrip]
  refine ⟨?_, chain_reverse_adjOk hd2Chain, ?_, ?_⟩
  · intro c hc
    exact hd2All c (List.mem_reverse.1 hc)
  · -- head of d2.reverse is the last of d2, a suffix of d1.reverse whose
    -- last element is the head of d1
    intro c rest h
    have hne : d2 ≠ [] := by
      intro hnil
      rw [hnil] at h
      exact absurd h (by simp)
    have hlast : d2.getLast? = some c := by
      rw [← List.head?_reverse, h]
      rfl
    obtain ⟨pre, hpre⟩ : ∃ pre, pre ++ d2 = d1.reverse :=
      List.dropWhile_suffix pyIsSpace
    have hlast2 : d1.reverse.getLast? = some c := by
      rw [← hpre, List.getLast?_append_of_ne_nil _ hne, hlast]
    have hhead1 : d1.head? = some c := by
      rw [← List.getLast?_reverse, hlast2]
    cases hd1c : d1 with
    | nil => rw [hd1c] at hhead1; exact absurd hhead1 (by simp)
    | cons x xs =>
      have : x = c := by
        rw [hd1c] at hhead1
        simpa using hhead1
      subst this
      exact hd1Head x xs hd1c
  · rw [List.reverse_reverse]
    exact hd2Head

theorem replaceNl_map (l : Chars) :
    tidyObject l = stripWs (collapseWs false
      (l.map (fun c => if c == '\n' then ' ' else c))) := rfl

theorem tidyObject_normalized (l : Chars) : normalizedWs (tidyObject l) :=
  tidyObject_aux_normalized _

theorem no_newline_of_allWsSpace {l : Chars} (h : allWsSpace l) :
    l.map (fun c => if c == '\n' then ' ' else c) = l := by
  have : ∀ c ∈ l, (fun c => if c == '\n' then ' ' else c) c = c := by
    intro c hc
    by_cases hn : c = '\n'
    · subst hn
      have := h '\n' hc (by decide)
      exact absurd this (by decide)
    · simp [hn]
  calc l.map (fun c => if c == '\n' then ' ' else c)
      = l.map id := List.map_congr_left this
    _ = l := List.map_id l

theorem collapseWs_id {l : Chars} (hAll : allWsSpace l)
    (hChain : List.Chain' adjOk l) :
    collapseWs false l = l ∧ (headNotWs l → collapseWs true l = l) := by
  induction l with
  | nil => exact ⟨rfl, fun _ => rfl⟩
  | cons c cs ih =>
    have hAllcs : allWsSpace cs := fun x hx => hAll x (List.mem_cons_of_mem c hx)
    rcases List.chain'_cons'.1 hChain with ⟨hhd, hChaincs⟩
    rcases ih hAllcs hChaincs with ⟨ihF, ihT⟩
    by_cases hc : pyIsSpace c = true
    · have hcs_head : headNotWs cs := by
        intro x rest hx
        have := hhd x (by rw [hx]; rfl)
        unfold adjOk at this
        rw [hc] at this
        simpa using this
      constructor
      · simp only [collapseWs, if_pos hc]
        simp only [if_neg (by simp : ¬(false = true))]
        rw [ihT hcs_head]
        have : c = ' ' := hAll c (by simp) hc
        rw [this]
      · intro hhead
        have := hhead c cs rfl
        rw [hc] at this
        exact absurd this (by simp)
    · have hc' : pyIsSpace c = false := by
        cases hv : pyIsSpace c with
        | true => exact absurd hv hc
        | false => rfl
      constructor
      · simp only [collapseWs, if_neg hc]
        rw [ihF]
      · intro _
        simp only [collapseWs, if_neg hc]
        rw [ihF]

theorem stripWs_id {l : Chars} (hHead : headNotWs l)
    (hLast : headNotWs l.reverse) : stripWs l = l := by
  have h1 : l.dropWhile pyIsSpace = l := by
    cases hl : l with
    | nil => rfl
    | cons c cs =>
      rw [List.dropWhile_cons, if_neg]
      rw [hHead c cs hl]
      simp
  unfold stripWs
  rw [h1]
  have h2 : l.reverse.dropWhile pyIsSpace = l.reverse := by
    cases hl : l.reverse with
    | nil => rfl
    | cons c cs =>
      rw [List.dropWhile_cons, if_neg]
      rw [hLast c cs hl]
      simp
  rw [h2, List.reverse_reverse]

theorem tidyObject_of_normalized {l : Chars} (h : normalizedWs l) :
    tidyObject l = l := by
  obtain ⟨hAll, hChain, hHead, hLast⟩ := h
  unfold tidyObject
  rw [no_newline_of_allWsSpace hAll, (collapseWs_id hAll hChain).1]
  exact stripWs_id hHead hLast

theorem tidyObject_idem (l : Chars) :
    tidyObject (tidyObject l) = tidyObject l :=
  tidyObject_of_normalized (tidyObject_normalized l)

theorem normalizedWs_of_noWs {l : Chars}
    (h : ∀ c ∈ l, pyIsSpace c = false) : normalizedWs l := by
  refine ⟨?_, ?_, ?_, ?_⟩
  · intro c hc hcs
    rw [h c hc] at hcs
    exact absurd hcs (by simp)
  · induction l with
    | nil => exact List.chain'_nil
    | cons c cs ih =>
      refine List.chain'_cons'.2 ⟨?_, ih (fun x hx => h x (by simp [hx]))⟩
      intro y _
      unfold adjOk
      rw [h c (by simp)]
      simp
  · intro c rest hl
    exact h c (by rw [hl]; simp)
  · intro c rest hl
    refine h c (List.mem_reverse.1 ?_)
    rw [hl]
    simp

theorem tidyObject_of_noWs {l : Chars}
    (h : ∀ c ∈ l, pyIsSpace c = false) : tidyObject l = l :=
  tidyObject_of_normalized (normalizedWs_of_noWs h)

theorem mem_splitOnCharAux {sep : Char} :
    ∀ {l acc : Chars} {x : Chars}, x ∈ splitOnCharAux sep l acc →
      ∀ c ∈ x, c ∈ acc ∨ c ∈ l := by
  intro l
  induction l with
  | nil =>
    intro acc x hx c hc
    simp only [splitOnCharAux] at hx
    have : x = acc.reverse := by simpa using hx
    subst this
    exact Or.inl (List.mem_reverse.1 hc)
  | cons d ds ih =>
    intro acc x hx c hc
    simp only [splitOnCharAux] at hx
    by_cases hd : (d == sep) = true
    · rw [if_pos hd] at hx
      rcases List.mem_cons.1 hx with h | h
      · subst h
        exact Or.inl (List.mem_reverse.1 hc)
      · rcases ih h c hc with h1 | h1
        · exact absurd h1 (by simp)
        · exact Or.inr (List.mem_cons_of_mem d h1)
    · rw [if_neg hd] at hx
      rcases ih hx c hc with h1 | h1
      · rcases List.mem_cons.1 h1 with h2 | h2
        · exact Or.inr (by simp [h2])
        · exact Or.inl h2
      · exact Or.inr (List.mem_cons_of_mem d h1)

theorem mem_splitOnChar {sep : Char} {l x : Chars}
    (hx : x ∈ splitOnChar sep l) : ∀ c ∈ x, c ∈ l := by
  intro c hc
  rcases mem_splitOnCharAux hx c hc with h | h
  · exact absurd h (List.not_mem_nil c)
  · exact h

theorem breakOn_append {sep : Chars} :
    ∀ {l a b : Chars}, breakOn sep l = some (a, b) → l = a ++ sep ++ b := by
  intro l
  induction l with
  | nil =>
    intro a b h
    simp only [breakOn] at h
    by_cases hs : sep.isEmpty = true
    · rw [if_pos hs] at h
      have ha := (Prod.mk.inj (Option.some.inj h))
      have hsep : sep = [] := by
        cases sep with
        | nil => rfl
        | cons x xs => exact absurd hs (by simp)
      rw [← ha.1, ← ha.2, hsep]
      rfl
    · rw [if_neg hs] at h
      exact absurd h (by simp)
  | cons c cs ih =>
    intro a b h
    simp only [breakOn] at h
    by_cases hp : sep.isPrefixOf (c :: cs) = true
    · rw [if_pos hp] at h
      have ha := Prod.mk.inj (Option.some.inj h)
      obtain ⟨t, ht⟩ := List.isPrefixOf_iff_prefix.1 hp
      rw [← ha.1, ← ha.2, List.nil_append, ← ht, List.drop_left]
    · rw [if_neg hp] at h
      cases hrec : breakOn sep cs with
      | none =>
        rw [hrec] at h
        exact absurd h (by simp)
      | some ab =>
        rw [hrec] at h
        obtain ⟨a', b'⟩ := ab
        simp only [] at h
        have ha := Prod.mk.inj (Option.some.inj h)
        rw [← ha.1, ← ha.2]
        have := ih hrec
        rw [List.cons_append, List.cons_append, ← this]

theorem natureSuffix_subset {doi p : Chars} (h : natureSuffix doi = some p) :
    ∀ c ∈ p, c ∈ doi := by
  unfold natureSuffix at h
  cases h1 : breakOn ("/srep".toList) doi with
  | none =>
    rw [h1] at h
    exact absurd h (by simp)
  | some xr =>
    rw [h1] at h
    obtain ⟨x, rest⟩ := xr
    simp only [] at h
    have hdoi : doi = x ++ "/srep".toList ++ rest := breakOn_append h1
    cases h2 : breakOn ("/srep".toList) rest with
    | none =>
      rw [h2] at h
      have : p = rest := (Option.some.inj h).symm
      subst this
      intro c hc
      rw [hdoi]
      simp [hc]
    | some ab =>
      rw [h2] at h
      obtain ⟨a, b⟩ := ab
      simp only [] at h
      have : p = a := (Option.some.inj h).symm
      subst this
      have hrest : rest = p ++ "/srep".toList ++ b := breakOn_append h2
      intro c hc
      rw [hdoi, hrest]
      simp [hc]

/-- The dot-separated parts of the DOI segment after the first slash,
empty when the DOI has no slash (the IndexError of the source). -/
def apsParts (doi : Chars) : List Chars :=
  match splitOnChar '/' doi with
  | _ :: second :: _ => splitOnChar '.' second
  | _ => []

/-- The volume candidate of the APS rule. -/
def apsParse1 (doi : Chars) : Option Chars := (apsParts doi).get? 1

/-- The page candidate of the APS rule. -/
def apsParse2 (doi : Chars) : Option Chars := (apsParts doi).get? 2

theorem apsParts_subset {doi : Chars} {x : Chars} (hx : x ∈ apsParts doi) :
    ∀ c ∈ x, c ∈ doi := by
  unfold apsParts at hx
  cases hsp : splitOnChar '/' doi with
  | nil =>
    rw [hsp] at hx
    exact absurd hx (by simp)
  | cons a tl =>
    cases tl with
    | nil =>
      rw [hsp] at hx
      exact absurd hx (by simp)
    | cons second tl2 =>
      rw [hsp] at hx
      simp only [] at hx
      intro c hc
      have hsecond : second ∈ splitOnChar '/' doi := by
        rw [hsp]
        simp
      exact mem_splitOnChar hsecond c (mem_splitOnChar hx c hc)

theorem tidyForAps_eq (m : Metadata) :
    tidyForAps m =
      if (m.pageStart = [] ∨ m.volume = []) ∧ m.doi ≠ [] then
        { m with
            volume :=
              if m.volume = [] then (apsParse1 m.doi).getD m.volume
              else m.volume,
            pageStart :=
              if m.pageStart = [] ∧ (m.volume ≠ [] ∨ (apsParse1 m.doi).isSome)
              then (apsParse2 m.doi).getD m.pageStart
              else m.pageStart }
      else m := by
  unfold tidyForAps apsParse1 apsParse2 apsParts
  by_cases h1 : (m.pageStart = [] ∨ m.volume = []) ∧ m.doi ≠ []
  · rw [if_pos h1, if_pos h1]
    cases hsp : splitOnChar '/' m.doi with
    | nil =>
      simp only [List.get?, Option.getD_none, Option.isSome_none,
        Bool.false_eq_true, or_false, ite_self]
    | cons a tl =>
      cases tl with
      | nil =>
        simp only [List.get?, Option.getD_none, Option.isSome_none,
          Bool.false_eq_true, or_false, ite_self]
      | cons second tl2 =>
        simp only []
        by_cases hv : m.volume = []
        · rw [if_pos hv, if_pos hv]
          cases hp1 : (splitOnChar '.' second).get? 1 with
          | none =>
            simp only [Option.getD_none, Option.isSome_none]
            have hcond : ¬(m.pageStart = [] ∧ (m.volume ≠ [] ∨ false = true)) := by
              rintro ⟨-, hc | hc⟩
              · exact hc hv
              · exact absurd hc (by simp)
            rw [if_neg hcond]
          | some p1 =>
            simp only [Option.getD_some, Option.isSome_some]
            by_cases hps : m.pageStart = []
            · rw [if_pos hps]
              rw [if_pos (show m.pageStart = [] ∧ (m.volume ≠ [] ∨ True) from
                ⟨hps, Or.inr trivial⟩)]
              cases hp2 : (splitOnChar '.' second).get? 2 with
              | none => rfl
              | some p2 => rfl
            · rw [if_neg hps]
              rw [if_neg (show ¬(m.pageStart = [] ∧ (m.volume ≠ [] ∨ True)) from
                fun hh => hps hh.1)]
        · rw [if_neg hv, if_neg hv]
          by_cases hps : m.pageStart = []
          · rw [if_pos hps]
            rw [if_pos (show m.pageStart = [] ∧
                (m.volume ≠ [] ∨ ((splitOnChar '.' second).get? 1).isSome = true) from
              ⟨hps, Or.inl hv⟩)]
            cases hp2 : (splitOnChar '.' second).get? 2 with
            | none => rfl
            | some p2 => rfl
          · rw [if_neg hps]
            rw [if_neg (show ¬(m.pageStart = [] ∧
                (m.volume ≠ [] ∨ ((splitOnChar '.' second).get? 1).isSome = true)) from
              fun hh => hps hh.1)]
  · rw [if_neg h1]
    rw [if_neg h1]

theorem apsParse2_none_of_parse1_none {doi : Chars}
    (h : apsParse1 doi = none) : apsParse2 doi = none := by
  unfold apsParse1 at h
  unfold apsParse2
  have h1 : (apsParts doi).length ≤ 1 := List.get?_eq_none.1 h
  exact List.get?_eq_none.2 (by omega)

theorem tidyForAps_frame (m : Metadata) :
    (tidyForAps m).doi = m.doi ∧ (tidyForAps m).isbn = m.isbn ∧
    (tidyForAps m).issn = m.issn ∧ (tidyForAps m).url = m.url ∧
    (tidyForAps m).author = m.author ∧ (tidyForAps m).editor = m.editor ∧
    (tidyForAps m).publisher = m.publisher ∧ (tidyForAps m).title = m.title ∧
    (tidyForAps m).edition = m.edition ∧ (tidyForAps m).journal = m.journal ∧
    (tidyForAps m).issue = m.issue ∧ (tidyForAps m).year = m.year ∧
    (tidyForAps m).pageEnd = m.pageEnd := by
  rw [tidyForAps_eq]
  split <;> simp

theorem tidyForNature_eq (m : Metadata) :
    tidyForNature m =
      if m.pageStart = [] then
        { m with pageStart := (natureSuffix m.doi).getD m.pageStart }
      else m := by
  unfold tidyForNature
  by_cases h : m.pageStart = []
  · rw [if_pos h, if_pos h]
    cases hn : natureSuffix m.doi with
    | none => rfl
    | some p => rfl
  · rw [if_neg h, if_neg h]

theorem tidyForNature_frame (m : Metadata) :
    (tidyForNature m).doi = m.doi ∧ (tidyForNature m).isbn = m.isbn ∧
    (tidyForNature m).issn = m.issn ∧ (tidyForNature m).url = m.url ∧
    (tidyForNature m).author = m.author ∧ (tidyForNature m).editor = m.editor ∧
    (tidyForNature m).publisher = m.publisher ∧
    (tidyForNature m).title = m.title ∧
    (tidyForNature m).edition = m.edition ∧
    (tidyForNature m).journal = m.journal ∧
    (tidyForNature m).volume = m.volume ∧
    (tidyForNature m).issue = m.issue ∧ (tidyForNature m).year = m.year ∧
    (tidyForNature m).pageEnd = m.pageEnd := by
  rw [tidyForNature_eq]
  split <;> simp

theorem tidyForAps_idem (m : Metadata) :
    tidyForAps (tidyForAps m) = tidyForAps m := by
  have hdoi : (tidyForAps m).doi = m.doi := (tidyForAps_frame m).1
  rw [tidyForAps_eq (tidyForAps m)]
  by_cases hC' : ((tidyForAps m).pageStart = [] ∨ (tidyForAps m).volume = []) ∧
      (tidyForAps m).doi ≠ []
  · rw [if_pos hC']
    have hCm : (m.pageStart = [] ∨ m.volume = []) ∧ m.doi ≠ [] := by
      have hdne : m.doi ≠ [] := hdoi ▸ hC'.2
      by_contra hC
      have hmm : tidyForAps m = m := by rw [tidyForAps_eq, if_neg hC]
      rw [hmm] at hC'
      exact hC ⟨hC'.1, hdne⟩
    have hmv : (tidyForAps m).volume
        = if m.volume = [] then (apsParse1 m.doi).getD m.volume
          else m.volume := by
      rw [tidyForAps_eq m, if_pos hCm]
    have hmp : (tidyForAps m).pageStart
        = if m.pageStart = [] ∧ (m.volume ≠ [] ∨ (apsParse1 m.doi).isSome = true)
          then (apsParse2 m.doi).getD m.pageStart
          else m.pageStart := by
      rw [tidyForAps_eq m, if_pos hCm]
    have hvol : (if (tidyForAps m).volume = [] then
        (apsParse1 (tidyForAps m).doi).getD (tidyForAps m).volume
        else (tidyForAps m).volume) = (tidyForAps m).volume := by
      by_cases hv : (tidyForAps m).volume = []
      · rw [if_pos hv, hdoi, hv]
        cases hp1 : apsParse1 m.doi with
        | none => rfl
        | some v =>
          rw [hmv] at hv
          by_cases hmvol : m.volume = []
          · rw [if_pos hmvol, hp1] at hv
            have hveq : v = [] := by simpa using hv
            simp [hveq]
          · rw [if_neg hmvol] at hv
            exact absurd hv hmvol
      · rw [if_neg hv]
    have hps : (if (tidyForAps m).pageStart = [] ∧
        ((tidyForAps m).volume ≠ [] ∨ (apsParse1 (tidyForAps m).doi).isSome) then
        (apsParse2 (tidyForAps m).doi).getD (tidyForAps m).pageStart
        else (tidyForAps m).pageStart) = (tidyForAps m).pageStart := by
      by_cases hcnd : (tidyForAps m).pageStart = [] ∧
          ((tidyForAps m).volume ≠ [] ∨
            (apsParse1 (tidyForAps m).doi).isSome = true)
      · rw [if_pos hcnd, hdoi, hcnd.1]
        cases hp2 : apsParse2 m.doi with
        | none => rfl
        | some p =>
          have hp := hcnd.1
          rw [hmp] at hp
          by_cases hmcnd : m.pageStart = [] ∧
              (m.volume ≠ [] ∨ (apsParse1 m.doi).isSome = true)
          · rw [if_pos hmcnd, hp2] at hp
            have hpeq : p = [] := by simpa using hp
            simp [hpeq]
          · rw [if_neg hmcnd] at hp
            have hps0 : m.pageStart = [] := hp
            have hboth : ¬(m.volume ≠ [] ∨ (apsParse1 m.doi).isSome = true) :=
              fun hor => hmcnd ⟨hps0, hor⟩
            push_neg at hboth
            have hp1none : apsParse1 m.doi = none := by
              cases ho : apsParse1 m.doi with
              | none => rfl
              | some v => exact absurd (by rw [ho]; rfl) hboth.2
            rw [apsParse2_none_of_parse1_none hp1none] at hp2
            exact absurd hp2 (by simp)
      · rw [if_neg hcnd]
    rw [hvol, hps]
  · rw [if_neg hC']

theorem tidyForNature_idem (m : Metadata) :
    tidyForNature (tidyForNature m) = tidyForNature m := by
  have hdoi : (tidyForNature m).doi = m.doi := (tidyForNature_frame m).1
  rw [tidyForNature_eq (tidyForNature m)]
  by_cases hp : (tidyForNature m).pageStart = []
  · rw [if_pos hp, hdoi, hp]
    cases hn : natureSuffix m.doi with
    | none =>
      have hgd : (none : Option Chars).getD [] = [] := rfl
      rw [hgd, ← hp, ← hdoi]
    | some p =>
      have hps : (tidyForNature m).pageStart = p := by
        rw [tidyForNature_eq m]
        by_cases hmp : m.pageStart = []
        · rw [if_pos hmp]
          simp [hn]
        · rw [tidyForNature_eq m, if_neg hmp] at hp
          exact absurd hp hmp
      have hpe : p = [] := by
        rw [hps] at hp
        exact hp
      have hgd : (some p).getD ([] : Chars) = [] := by
        rw [hpe]
        rfl
      rw [hgd, ← hp, ← hdoi]
  · rw [if_neg hp]

theorem tidyForAps_volume_sub (m : Metadata) :
    (tidyForAps m).volume = m.volume ∨
      ∀ c ∈ (tidyForAps m).volume, c ∈ m.doi := by
  rw [tidyForAps_eq]
  by_cases hC : (m.pageStart = [] ∨ m.volume = []) ∧ m.doi ≠ []
  · rw [if_pos hC]
    simp only []
    by_cases hv : m.volume = []
    · rw [if_pos hv]
      cases hp1 : apsParse1 m.doi with
      | none => left; rfl
      | some v =>
        right
        intro c hc
        simp only [Option.getD_some] at hc
        have hmem : v ∈ apsParts m.doi := List.get?_mem hp1
        exact apsParts_subset hmem c hc
    · rw [if_neg hv]
      left
      rfl
  · rw [if_neg hC]
    left
    rfl

theorem tidyForAps_pageStart_sub (m : Metadata) :
    (tidyForAps m).pageStart = m.pageStart ∨
      ∀ c ∈ (tidyForAps m).pageStart, c ∈ m.doi := by
  rw [tidyForAps_eq]
  by_cases hC : (m.pageStart = [] ∨ m.volume = []) ∧ m.doi ≠ []
  · rw [if_pos hC]
    simp only []
    by_cases hcnd : m.pageStart = [] ∧ (m.volume ≠ [] ∨ (apsParse1 m.doi).isSome = true)
    · rw [if_pos hcnd]
      cases hp2 : apsParse2 m.doi with
      | none => left; rfl
      | some p =>
        right
        intro c hc
        simp only [Option.getD_some] at hc
        have hmem : p ∈ apsParts m.doi := List.get?_mem hp2
        exact apsParts_subset hmem c hc
    · rw [if_neg hcnd]
      left
      rfl
  · rw [if_neg hC]
    left
    rfl

theorem tidyForNature_pageStart_sub (m : Metadata) :
    (tidyForNature m).pageStart = m.pageStart ∨
      ∀ c ∈ (tidyForNature m).pageStart, c ∈ m.doi := by
  rw [tidyForNature_eq]
  by_cases hp : m.pageStart = []
  · rw [if_pos hp]
    cases hn : natureSuffix m.doi with
    | none => left; rfl
    | some p =>
      right
      intro c hc
      simp only [Option.getD_some] at hc
      exact natureSuffix_subset hn c hc
  · rw [if_neg hp]
    left
    rfl

theorem tidyByPublisher_frame (m : Metadata) :
    (tidyByPublisher m).doi = m.doi ∧ (tidyByPublisher m).isbn = m.isbn ∧
    (tidyByPublisher m).issn = m.issn ∧ (tidyByPublisher m).url = m.url ∧
    (tidyByPublisher m).author = m.author ∧
    (tidyByPublisher m).editor = m.editor ∧
    (tidyByPublisher m).publisher = m.publisher ∧
    (tidyByPublisher m).title = m.title ∧
    (tidyByPublisher m).edition = m.edition ∧
    (tidyByPublisher m).journal = m.journal ∧
    (tidyByPublisher m).issue = m.issue ∧ (tidyByPublisher m).year = m.year ∧
    (tidyByPublisher m).pageEnd = m.pageEnd := by
  unfold tidyByPublisher
  by_cases ha : containsSub apsPat (publisherLookup m.publisher) = true
  · rw [if_pos ha]
    obtain ⟨h1, h2, h3, h4, h5, h6, h7, h8, h9, h10, h11, h12, h13⟩ :=
      tidyForAps_frame m
    exact ⟨h1, h2, h3, h4, h5, h6, h7, h8, h9, h10, h11, h12, h13⟩
  · rw [if_neg ha]
    by_cases hn : containsSub naturePat (publisherLookup m.publisher) = true
    · rw [if_pos hn]
      obtain ⟨h1, h2, h3, h4, h5, h6, h7, h8, h9, h10, -, h11, h12, h13⟩ :=
        tidyForNature_frame m
      exact ⟨h1, h2, h3, h4, h5, h6, h7, h8, h9, h10, h11, h12, h13⟩
    · rw [if_neg hn]
      exact ⟨rfl, rfl, rfl, rfl, rfl, rfl, rfl, rfl, rfl, rfl, rfl, rfl, rfl⟩

theorem tidyByPublisher_eq (m : Metadata) :
    tidyByPublisher m =
      if containsSub apsPat (publisherLookup m.publisher) = true then
        tidyForAps m
      else if containsSub naturePat (publisherLookup m.publisher) = true then
        tidyForNature m
      else m := rfl

theorem tidyByPublisher_idem (m : Metadata) :
    tidyByPublisher (tidyByPublisher m) = tidyByPublisher m := by
  by_cases ha : containsSub apsPat (publisherLookup m.publisher) = true
  · have h1 : tidyByPublisher m = tidyForAps m := by
      rw [tidyByPublisher_eq, if_pos ha]
    have hpub2 : (tidyForAps m).publisher = m.publisher :=
      (tidyForAps_frame m).2.2.2.2.2.2.1
    have h2 : tidyByPublisher (tidyForAps m) = tidyForAps (tidyForAps m) := by
      rw [tidyByPublisher_eq, hpub2, if_pos ha]
    rw [h1, h2, tidyForAps_idem]
  · by_cases hn : containsSub naturePat (publisherLookup m.publisher) = true
    · have h1 : tidyByPublisher m = tidyForNature m := by
        rw [tidyByPublisher_eq, if_neg ha, if_pos hn]
      have hpub2 : (tidyForNature m).publisher = m.publisher :=
        (tidyForNature_frame m).2.2.2.2.2.2.1
      have h2 : tidyByPublisher (tidyForNature m)
          = tidyForNature (tidyForNature m) := by
        rw [tidyByPublisher_eq, hpub2, if_neg ha, if_pos hn]
      rw [h1, h2, tidyForNature_idem]
    · have h1 : tidyByPublisher m = m := by
        rw [tidyByPublisher_eq, if_neg ha, if_neg hn]
      rw [h1, h1]

theorem tidyName_idem (n : PersonName) : tidyName (tidyName n) = tidyName n := by
  unfold tidyName
  rw [tidyObject_idem, tidyObject_idem]

theorem map_tidyName_idem (l : List PersonName) :
    (l.map tidyName).map tidyName = l.map tidyName := by
  rw [List.map_map]
  apply List.map_congr_left
  intro n _
  show tidyName (tidyName n) = tidyName n
  exact tidyName_idem n

theorem tidyFields_fix {m : Metadata}
    (h1 : tidyObject m.doi = m.doi) (h2 : tidyObject m.isbn = m.isbn)
    (h3 : tidyObject m.issn = m.issn) (h4 : tidyObject m.url = m.url)
    (h5 : m.author.map tidyName = m.author)
    (h6 : m.editor.map tidyName = m.editor)
    (h7 : tidyObject m.publisher = m.publisher)
    (h8 : tidyObject m.title = m.title)
    (h9 : tidyObject m.edition = m.edition)
    (h10 : tidyObject m.journal = m.journal)
    (h11 : tidyObject m.volume = m.volume)
    (h12 : tidyObject m.issue = m.issue)
    (h13 : tidyObject m.year = m.year)
    (h14 : tidyObject m.pageStart = m.pageStart)
    (h15 : tidyObject m.pageEnd = m.pageEnd) :
    tidyFields m = m := by
  unfold tidyFields
  rw [h1, h2, h3, h4, h5, h6, h7, h8, h9, h10, h11, h12, h13, h14, h15]

theorem tidyByPublisher_volume_sub (m : Metadata) :
    (tidyByPublisher m).volume = m.volume ∨
      ∀ c ∈ (tidyByPublisher m).volume, c ∈ m.doi := by
  rw [tidyByPublisher_eq]
  by_cases ha : containsSub apsPat (publisherLookup m.publisher) = true
  · rw [if_pos ha]
    exact tidyForAps_volume_sub m
  · rw [if_neg ha]
    by_cases hn : containsSub naturePat (publisherLookup m.publisher) = true
    · rw [if_pos hn]
      exact Or.inl (tidyForNature_frame m).2.2.2.2.2.2.2.2.2.2.1
    · rw [if_neg hn]
      exact Or.inl rfl

theorem tidyByPublisher_pageStart_sub (m : Metadata) :
    (tidyByPublisher m).pageStart = m.pageStart ∨
      ∀ c ∈ (tidyByPublisher m).pageStart, c ∈ m.doi := by
  rw [tidyByPublisher_eq]
  by_cases ha : containsSub apsPat (publisherLookup m.publisher) = true
  · rw [if_pos ha]
    exact tidyForAps_pageStart_sub m
  · rw [if_neg ha]
    by_cases hn : containsSub naturePat (publisherLookup m.publisher) = true
    · rw [if_pos hn]
      exact tidyForNature_pageStart_sub m
    · rw [if_neg hn]
      exact Or.inl rfl

theorem tidyFields_fix_backfill {m : Metadata}
    (hdoi : ∀ c ∈ m.doi, pyIsSpace c = false) :
    tidyFields (tidyByPublisher (tidyFields m))
      = tidyByPublisher (tidyFields m) := by
  obtain ⟨f1, f2, f3, f4, f5, f6, f7, f8, f9, f10, f11, f12, f13⟩ :=
    tidyByPublisher_frame (tidyFields m)
  have hMdoi : (tidyFields m).doi = m.doi := by
    show tidyObject m.doi = m.doi
    exact tidyObject_of_noWs hdoi
  apply tidyFields_fix
  · rw [f1, hMdoi]
    exact tidyObject_of_noWs hdoi
  · rw [f2]
    show tidyObject (tidyObject m.isbn) = tidyObject m.isbn
    exact tidyObject_idem _
  · rw [f3]
    show tidyObject (tidyObject m.issn) = tidyObject m.issn
    exact tidyObject_idem _
  · rw [f4]
    show tidyObject (tidyObject m.url) = tidyObject m.url
    exact tidyObject_idem _
  · rw [f5]
    show (m.author.map tidyName).map tidyName = m.author.map tidyName
    exact map_tidyName_idem _
  · rw [f6]
    show (m.editor.map tidyName).map tidyName = m.editor.map tidyName
    exact map_tidyName_idem _
  · rw [f7]
    show tidyObject (tidyObject m.publisher) = tidyObject m.publisher
    exact tidyObject_idem _
  · rw [f8]
    show tidyObject (tidyObject m.title) = tidyObject m.title
    exact tidyObject_idem _
  · rw [f9]
    show tidyObject (tidyObject m.edition) = tidyObject m.edition
    exact tidyObject_idem _
  · rw [f10]
    show tidyObject (tidyObject m.journal) = tidyObject m.journal
    exact tidyObject_idem _
  · rcases tidyByPublisher_volume_sub (tidyFields m) with hv | hv
    · rw [hv]
      show tidyObject (tidyObject m.volume) = tidyObject m.volume
      exact tidyObject_idem _
    · apply tidyObject_of_noWs
      intro c hc
      have hcd : c ∈ (tidyFields m).doi := hv c hc
      rw [hMdoi] at hcd
      exact hdoi c hcd
  · rw [f11]
    show tidyObject (tidyObject m.issue) = tidyObject m.issue
    exact tidyObject_idem _
  · rw [f12]
    show tidyObject (tidyObject m.year) = tidyObject m.year
    exact tidyObject_idem _
  · rcases tidyByPublisher_pageStart_sub (tidyFields m) with hp | hp
    · rw [hp]
      show tidyObject (tidyObject m.pageStart) = tidyObject m.pageStart
      exact tidyObject_idem _
    · apply tidyObject_of_noWs
      intro c hc
      have hcd : c ∈ (tidyFields m).doi := hp c hc
      rw [hMdoi] at hcd
      exact hdoi c hcd
  · rw [f13]
    show tidyObject (tidyObject m.pageEnd) = tidyObject m.pageEnd
    exact tidyObject_idem _

/-- Claim C1 as amended: tidy is idempotent on every record whose DOI
contains no whitespace character (as any actual DOI does): the
whitespace pass reaches a normal form on every field, and the publisher
backfill, which only copies pieces of the already tidied DOI into the
empty volume and pageStart fields and never overwrites nonempty ones, is
itself idempotent; a DOI with an embedded space breaks idempotence (see
the counterexample) because the backfilled piece is stripped only by the
second pass. -/
theorem c1_tidy_idempotent (m : Metadata)
    (hdoi : ∀ c ∈ m.doi, pyIsSpace c = false) :
    tidy (tidy m) = tidy m := by
  show tidyByPublisher (tidyFields (tidyByPublisher (tidyFields m)))
      = tidyByPublisher (tidyFields m)
  rw [tidyFields_fix_backfill hdoi, tidyByPublisher_idem]

/-- The record of the C1 witness: an APS record whose DOI has no
whitespace. -/
def c1w : Metadata :=
  { publisher := "American Physical Society".toList,
    doi := "10.1103/PhysRevB.84.125106".toList,
    title := "a  title with   runs".toList }

theorem c1_witness : tidy (tidy c1w) = tidy c1w :=
  c1_tidy_idempotent c1w (by decide)

/-- The record of the C1 counterexample: an APS record whose DOI
contains a space, so the backfilled volume keeps a leading space after
the first tidy and loses it in the second. -/
def c1cex : Metadata :=
  { publisher := "American Physical Society".toList,
    doi := "10.1103/a. 5.7".toList }

/-- Claim C1, counterexample: tidy applied twice differs from tidy
applied once on a record whose DOI contains a space: the first tidy
backfills volume with the piece space-five of the DOI, and only the
second tidy strips it. -/
theorem c1_counterexample : tidy (tidy c1cex) ≠ tidy c1cex := by decide

theorem tidyForAps_volume_keep (m : Metadata) (hv : m.volume ≠ []) :
    (tidyForAps m).volume = m.volume := by
  rw [tidyForAps_eq]
  by_cases hC : (m.pageStart = [] ∨ m.volume = []) ∧ m.doi ≠ []
  · rw [if_pos hC]
    simp only []
    rw [if_neg hv]
  · rw [if_neg hC]

theorem tidyForAps_pageStart_keep (m : Metadata) (hp : m.pageStart ≠ []) :
    (tidyForAps m).pageStart = m.pageStart := by
  rw [tidyForAps_eq]
  by_cases hC : (m.pageStart = [] ∨ m.volume = []) ∧ m.doi ≠ []
  · rw [if_pos hC]
    simp only []
    rw [if_neg (fun hcnd => hp hcnd.1)]
  · rw [if_neg hC]

theorem tidyForNature_pageStart_keep (m : Metadata) (hp : m.pageStart ≠ []) :
    (tidyForNature m).pageStart = m.pageStart := by
  rw [tidyForNature_eq, if_neg hp]

theorem tidyForAps_volume_fail (m : Metadata) (hv : m.volume = [])
    (hf : apsParse1 m.doi = none) : (tidyForAps m).volume = [] := by
  rw [tidyForAps_eq]
  by_cases hC : (m.pageStart = [] ∨ m.volume = []) ∧ m.doi ≠ []
  · rw [if_pos hC]
    simp only []
    rw [if_pos hv, hf]
    exact hv
  · rw [if_neg hC]
    exact hv

theorem tidyForAps_pageStart_fail (m : Metadata) (hp : m.pageStart = [])
    (hf : apsParse2 m.doi = none) : (tidyForAps m).pageStart = [] := by
  rw [tidyForAps_eq]
  by_cases hC : (m.pageStart = [] ∨ m.volume = []) ∧ m.doi ≠ []
  · rw [if_pos hC]
    simp only []
    by_cases hcnd : m.pageStart = [] ∧
        (m.volume ≠ [] ∨ (apsParse1 m.doi).isSome = true)
    · rw [if_pos hcnd, hf]
      exact hp
    · rw [if_neg hcnd]
      exact hp
  · rw [if_neg hC]
    exact hp

theorem tidyForNature_pageStart_fail (m : Metadata) (hp : m.pageStart = [])
    (hf : natureSuffix m.doi = none) : (tidyForNature m).pageStart = [] := by
  rw [tidyForNature_eq, if_pos hp, hf]
  exact hp

/-- Claim C8: the publisher backfill pass touches at most volume and
pageStart: the thirteen other fields are returned unchanged; a nonempty
volume or pageStart is never overwritten; and when the DOI does not
parse by the matched publisher's pattern (APS volume piece, APS page
piece, Nature srep suffix) the corresponding empty target field stays
empty. -/
theorem c8_backfill_frame (m : Metadata) :
    ((tidyByPublisher m).doi = m.doi ∧ (tidyByPublisher m).isbn = m.isbn ∧
     (tidyByPublisher m).issn = m.issn ∧ (tidyByPublisher m).url = m.url ∧
     (tidyByPublisher m).author = m.author ∧
     (tidyByPublisher m).editor = m.editor ∧
     (tidyByPublisher m).publisher = m.publisher ∧
     (tidyByPublisher m).title = m.title ∧
     (tidyByPublisher m).edition = m.edition ∧
     (tidyByPublisher m).journal = m.journal ∧
     (tidyByPublisher m).issue = m.issue ∧
     (tidyByPublisher m).year = m.year ∧
     (tidyByPublisher m).pageEnd = m.pageEnd) ∧
    (m.volume ≠ [] → (tidyByPublisher m).volume = m.volume) ∧
    (m.pageStart ≠ [] → (tidyByPublisher m).pageStart = m.pageStart) ∧
    (containsSub apsPat (publisherLookup m.publisher) = true →
      m.volume = [] → apsParse1 m.doi = none →
      (tidyByPublisher m).volume = []) ∧
    (containsSub apsPat (publisherLookup m.publisher) = true →
      m.pageStart = [] → apsParse2 m.doi = none →
      (tidyByPublisher m).pageStart = []) ∧
    (containsSub apsPat (publisherLookup m.publisher) = false →
      containsSub naturePat (publisherLookup m.publisher) = true →
      m.pageStart = [] → natureSuffix m.doi = none →
      (tidyByPublisher m).pageStart = []) := by
  refine ⟨tidyByPublisher_frame m, ?_, ?_, ?_, ?_, ?_⟩
  · intro hv
    rw [tidyByPublisher_eq]
    by_cases ha : containsSub apsPat (publisherLookup m.publisher) = true
    · rw [if_pos ha]
      exact tidyForAps_volume_keep m hv
    · rw [if_neg ha]
      by_cases hn : containsSub naturePat (publisherLookup m.publisher) = true
      · rw [if_pos hn]
        exact (tidyForNature_frame m).2.2.2.2.2.2.2.2.2.2.1
      · rw [if_neg hn]
  · intro hp
    rw [tidyByPublisher_eq]
    by_cases ha : containsSub apsPat (publisherLookup m.publisher) = true
    · rw [if_pos ha]
      exact tidyForAps_pageStart_keep m hp
    · rw [if_neg ha]
      by_cases hn : containsSub naturePat (publisherLookup m.publisher) = true
      · rw [if_pos hn]
        exact tidyForNature_pageStart_keep m hp
      · rw [if_neg hn]
  · intro ha hv hf
    rw [tidyByPublisher_eq, if_pos ha]
    exact tidyForAps_volume_fail m hv hf
  · intro ha hp hf
    rw [tidyByPublisher_eq, if_pos ha]
    exact tidyForAps_pageStart_fail m hp hf
  · intro ha hn hp hf
    rw [tidyByPublisher_eq, if_neg (by simp [ha]), if_pos hn]
    exact tidyForNature_pageStart_fail m hp hf

/-- The record of the C8 witness: an APS record with a nonempty volume
and a structured DOI. -/
def c8w : Metadata :=
  { publisher := "American Physical Society".toList,
    doi := "10.1103/PhysRevB.84.125106".toList,
    volume := "84".toList }

theorem c8_witness :
    (tidyByPublisher c8w).journal = c8w.journal ∧
    (tidyByPublisher c8w).volume = c8w.volume :=
  ⟨(c8_backfill_frame c8w).1.2.2.2.2.2.2.2.2.2.1,
   (c8_backfill_frame c8w).2.1 (by decide)⟩
